import Mathlib

/-!
A verification development for the room-with-a-view SQL view/function manager
(file room_with_a_view/room_with_a_view.py).  The Python source is embedded
shallowly: pure text processing becomes functions on lists of characters,
the statement records and dependency-graph nodes become a structure, the
mutable dict-of-nodes becomes an association list keyed by the node name,
and the SQL execution capability becomes an injected oracle from SQL text to
optional result rows.  The breadth-first traversal is embedded with an
explicit fuel argument; the wrapper supplies a fuel bound proved sufficient
below, so exhaustion is impossible and termination of the loop is a theorem.
-/

/-- Whitespace in the sense of the regex class backslash-s restricted to
ASCII (space, tab, newline, carriage return, vertical tab, form feed). -/
def isSpaceChar (c : Char) : Bool :=
  c == ' ' || c == '\t' || c == '\n' || c == '\r' || c == '\x0b' || c == '\x0c'

/-- Word characters in the sense of the regex class backslash-w restricted to
ASCII: letters, digits and underscore. -/
def isWordChar (c : Char) : Bool :=
  c.isAlphanum || c == '_'

/-- Case-insensitive character equality (regex flag re.I). -/
def lowerEq (a b : Char) : Bool := a.toLower == b.toLower

/-- Does the text start with the given pattern, case-insensitively? -/
def ciStartsWith : List Char → List Char → Bool
  | [], _ => true
  | _ :: _, [] => false
  | p :: ps, c :: cs => lowerEq p c && ciStartsWith ps cs

/-- Does the text start with the given pattern (case-sensitive)? -/
def listStartsWith : List Char → List Char → Bool
  | [], _ => true
  | _ :: _, [] => false
  | p :: ps, c :: cs => p == c && listStartsWith ps cs

/-- The Python substring test needle in haystack. -/
def listContains (needle : List Char) : List Char → Bool
  | [] => needle.isEmpty
  | c :: cs => listStartsWith needle (c :: cs) || listContains needle cs

/-- Length of the longest run of characters satisfying p at the start. -/
def countWhile (p : Char → Bool) : List Char → Nat
  | [] => 0
  | c :: cs => if p c then countWhile p cs + 1 else 0

/-- Split a character list on a separator character, Python str.split style:
the empty text yields one empty piece. -/
def splitOnChar (sep : Char) : List Char → List (List Char)
  | [] => [[]]
  | c :: cs =>
    let r := splitOnChar sep cs
    if c == sep then [] :: r
    else
      match r with
      | [] => [[c]]
      | h :: t => (c :: h) :: t

/-- Join pieces with a separator character. -/
def joinSep (sep : Char) : List (List Char) → List Char
  | [] => []
  | [x] => x
  | x :: y :: t => x ++ sep :: joinSep sep (y :: t)

/-- A line whose stripped form starts with two dashes is a SQL comment line. -/
def isCommentLine (line : List Char) : Bool :=
  listStartsWith ['-', '-'] (line.dropWhile isSpaceChar)

/-- The leading run of comment lines, each left-stripped of dashes, blanks
and tabs (Python lstrip with the char set dash blank tab); collection stops
at the first non-comment line. -/
def collectComments : List (List Char) → List (List Char)
  | [] => []
  | line :: rest =>
    if isCommentLine line then
      line.dropWhile (fun c => c == '-' || c == ' ' || c == '\t') :: collectComments rest
    else []

/-- The statement text parse_statement hands to the regexes: nonempty lines
that are not comment lines, rejoined with newlines. -/
def normalizeStatement (statement : String) : List Char :=
  let statement_lines := (splitOnChar '\n' statement.data).filter (fun l => l != [])
  joinSep '\n' (statement_lines.filter (fun l => !(isCommentLine l)))

/-- Is there an occurrence of the keyword as (case-insensitive) at index p? -/
def asOccAt (cs : List Char) (p : Nat) : Bool :=
  ciStartsWith ['a', 's'] (cs.drop p)

/-- All indices at or after lo carrying an as occurrence. -/
def asPositionsFrom (cs : List Char) (lo : Nat) : List Nat :=
  (List.range cs.length).filter (fun q => decide (lo ≤ q) && asOccAt cs q)

/-- Scan for the first as occurrence at an index in the interval from lo of
the given length. -/
def findOccAux (cs : List Char) : Nat → Nat → Option Nat
  | _, 0 => none
  | lo, fuel + 1 => if asOccAt cs lo then some lo else findOccAux cs (lo + 1) fuel

/-- The least index at or after lo carrying an as occurrence. -/
def findFirstOcc (cs : List Char) (lo : Nat) : Option Nat :=
  findOccAux cs lo (cs.length + 1 - lo)

/-- Position right after the header create [or replace] kw followed by
mandatory whitespace, i.e. the index where the regex name group starts.
The pieces are literal tokens separated by greedy whitespace runs, and the
characters that may follow each piece are disjoint from whitespace, so the
backtracking regex admits exactly this one decomposition. -/
def headerNameStart (kw : List Char) (cs : List Char) : Option Nat :=
  if ciStartsWith "create".data cs then
    let w0 := countWhile isSpaceChar (cs.drop 6)
    if w0 == 0 then none
    else
      let i1 := 6 + w0
      let i2opt : Option Nat :=
        if ciStartsWith "or replace".data (cs.drop i1) then
          let w1 := countWhile isSpaceChar (cs.drop (i1 + 10))
          if w1 == 0 then none else some (i1 + 10 + w1)
        else some i1
      match i2opt with
      | none => none
      | some i2 =>
        if ciStartsWith kw (cs.drop i2) then
          let w2 := countWhile isSpaceChar (cs.drop (i2 + kw.length))
          if w2 == 0 then none else some (i2 + kw.length + w2)
        else none
  else none

/-- Deterministic form of SQL_VIEW_STATEMENT_RE.fullmatch.  The name group
is a greedy word run and the declaration group ends with a lazy gap of at
least one character followed by the literal as; the trailing body group
matches anything, so the regex backtracking picks the longest name prefix k
of the word run for which an as occurrence exists at index at least
nameStart + k + 1 (equivalently k = min of the run length and
lastOcc - nameStart - 1, with lastOcc the last as occurrence in the text),
and then the earliest such occurrence.  Returns name, declaration, body. -/
def matchView (cs : List Char) : Option (String × String × String) :=
  match headerNameStart "view".data cs with
  | none => none
  | some ns =>
    let L := countWhile isWordChar (cs.drop ns)
    if L == 0 then none
    else
      match (asPositionsFrom cs (ns + 2)).getLast? with
      | none => none
      | some lastOcc =>
        let k := min L (lastOcc - ns - 1)
        match findFirstOcc cs (ns + k + 1) with
        | none => none
        | some p =>
          some (⟨(cs.drop ns).take k⟩, ⟨cs.take (p + 2)⟩, ⟨cs.drop (p + 2)⟩)

/-- If an as occurrence at p is followed by mandatory whitespace and the
two-dollar body delimiter, the index right after that delimiter. -/
def asDollarEnd (cs : List Char) (p : Nat) : Option Nat :=
  if asOccAt cs p then
    let w := countWhile isSpaceChar (cs.drop (p + 2))
    if w == 0 then none
    else if listStartsWith ['$', '$'] (cs.drop (p + 2 + w)) then some (p + 2 + w + 2)
    else none
  else none

/-- First index at or after lo where as plus whitespace plus two dollars
matches; returns the end of that match. -/
def firstAsDollar (cs : List Char) (lo : Nat) : Option Nat :=
  match ((List.range cs.length).filter
      (fun q => decide (lo ≤ q) && (asDollarEnd cs q).isSome)).head? with
  | none => none
  | some q => asDollarEnd cs q

/-- First occurrence of the keyword returns at index t with t at least r + 2
and no closing parenthesis strictly between r and t (the lazy non-paren gap
of the function regex). -/
def firstReturnsAfter (cs : List Char) (r : Nat) : Option Nat :=
  ((List.range cs.length).filter (fun t =>
    decide (r + 2 ≤ t) && ciStartsWith "returns".data (cs.drop t) &&
    ((cs.drop (r + 1)).take (t - r - 1)).all (fun c => c != ')'))).head?

/-- Given a candidate closing parenthesis index r for the argument list,
the end index of the declaration group if the tail of the function regex
matches from there. -/
def fnTailEnd (cs : List Char) (r : Nat) : Option Nat :=
  match firstReturnsAfter cs r with
  | none => none
  | some t => firstAsDollar cs (t + 8)

/-- Deterministic form of SQL_FUNCTION_STATEMENT_RE.fullmatch.  After the
header and the greedy word-run name, optional whitespace must be followed by
a literal open parenthesis; the greedy argument-list group ends at the last
closing parenthesis from which the rest of the pattern (a nonempty
paren-free gap, returns, a nonempty gap, as, whitespace, two dollars) still
matches.  Returns name, argument list, declaration, body. -/
def matchFunction (cs : List Char) : Option (String × String × String × String) :=
  match headerNameStart "function".data cs with
  | none => none
  | some ns =>
    let L := countWhile isWordChar (cs.drop ns)
    if L == 0 then none
    else
      let q := ns + L + countWhile isSpaceChar (cs.drop (ns + L))
      if listStartsWith ['('] (cs.drop q) then
        match ((List.range cs.length).filter (fun r =>
            decide (q < r) && listStartsWith [')'] (cs.drop r) &&
            (fnTailEnd cs r).isSome)).getLast? with
        | none => none
        | some r =>
          match fnTailEnd cs r with
          | none => none
          | some declEnd =>
            some (⟨(cs.drop ns).take L⟩, ⟨(cs.drop q).take (r - q + 1)⟩,
                  ⟨cs.take declEnd⟩, ⟨cs.drop declEnd⟩)
      else none

/-- The fields a recognized statement carries (the non-None branch of the
parse_statement result dict). -/
structure ParsedStmt where
  statement_type : String
  name : String
  declaration : String
  body : String
  arg_list : Option String
deriving Repr, DecidableEq, Inhabited

/-- The parse_statement result: the collected comments plus, when one of
the two regexes matched, the recognized statement fields. -/
structure StatementData where
  comments : String
  parsed : Option ParsedStmt
deriving Repr, DecidableEq, Inhabited

/-- RoomWithAViewCommand.parse_statement: split into nonempty lines, collect
the leading comment block, drop all comment lines, rejoin, and try the view
regex and then the function regex. -/
def parse_statement (statement : String) : StatementData :=
  if statement == "" then { comments := "", parsed := none }
  else
    let statement_lines := (splitOnChar '\n' statement.data).filter (fun l => l != [])
    let comments : String := ⟨joinSep ' ' (collectComments statement_lines)⟩
    let sql_lines := statement_lines.filter (fun l => !(isCommentLine l))
    if sql_lines == [] then { comments := comments, parsed := none }
    else
      let raw := normalizeStatement statement
      match matchView raw with
      | some (nm, decl, bd) =>
        { comments := comments,
          parsed := some { statement_type := "view", name := nm, declaration := decl,
                           body := bd, arg_list := none } }
      | none =>
        match matchFunction raw with
        | some (nm, args, decl, bd) =>
          { comments := comments,
            parsed := some { statement_type := "function", name := nm, declaration := decl,
                             body := bd, arg_list := some args } }
        | none => { comments := comments, parsed := none }

/-- DependencyGraphNode: one statement record plus its edge sets.  Edge sets
are kept as lists in insertion order; the Python sets never receive a
duplicate insertion on the paths modelled here. -/
structure Node where
  name : String
  statement_type : String
  declaration : String
  body : String
  arg_list : Option String
  comments : String
  in_edges : List String
  out_edges : List String
deriving Repr, DecidableEq, Inhabited

/-- Build a fresh node from a recognized statement (edges start empty, as
in DependencyGraphNode.__init__). -/
def mkNode (comments : String) (p : ParsedStmt) : Node :=
  { name := p.name, statement_type := p.statement_type, declaration := p.declaration,
    body := p.body, arg_list := p.arg_list, comments := comments,
    in_edges := [], out_edges := [] }

/-- The names of the nodes of a graph, in order (dict keys). -/
def namesOf (l : List Node) : List String := l.map (fun n => n.name)

/-- Python dict assignment graph[name] = node on an association list keyed
by the node name: replace in place if the key exists, else append. -/
def dictInsert (g : List Node) (node : Node) : List Node :=
  if g.any (fun m => m.name == node.name) then
    g.map (fun m => if m.name == node.name then node else m)
  else g ++ [node]

/-- RoomWithAViewCommand.parse_file on already-read file contents: split the
text on semicolons and insert a node for every recognized statement. -/
def parse_file_into (dependency_graph : List Node) (contents : String) : List Node :=
  (splitOnChar ';' contents.data).foldl (fun g chunk =>
    let statement_data := parse_statement ⟨chunk⟩
    match statement_data.parsed with
    | some p => dictInsert g (mkNode statement_data.comments p)
    | none => g) dependency_graph

/-- The first pass of parse_dependency_graph over a list of file contents. -/
def parse_files (contents_list : List String) : List Node :=
  contents_list.foldl parse_file_into []

/-- RoomWithAViewCommand.get_statements_from_file: the keys of the graph
obtained by parsing one file. -/
def get_statements_from_file (contents : String) : List String :=
  namesOf (parse_file_into [] contents)

/-- RoomWithAViewCommand.get_dependencies: the known names, other than the
statement's own, occurring verbatim inside its body. -/
def get_dependencies (cur_statement_name cur_statement_body : String)
    (all_statement_names : List String) : List String :=
  all_statement_names.filter (fun statement_name =>
    listContains statement_name.data cur_statement_body.data &&
    statement_name != cur_statement_name)

/-- Python set.add on a list with set semantics. -/
def setAdd (l : List String) (x : String) : List String :=
  if x ∈ l then l else l ++ [x]

/-- Python set union-assignment on a list with set semantics. -/
def setUnionL (l : List String) (xs : List String) : List String :=
  xs.foldl setAdd l

/-- One iteration of the edge-adding loop of parse_dependency_graph: compute
the node's dependencies, add them to its out_edges, and add the node's name
to each dependency's in_edges. -/
def addEdgesForNode (statement_names : List String) (g : List Node)
    (nodeName nodeBody : String) : List Node :=
  let dependencies := get_dependencies nodeName nodeBody statement_names
  let g1 := g.map (fun n =>
    if n.name == nodeName then { n with out_edges := setUnionL n.out_edges dependencies }
    else n)
  dependencies.foldl (fun acc dependency =>
    acc.map (fun n =>
      if n.name == dependency then { n with in_edges := setAdd n.in_edges nodeName }
      else n)) g1

/-- The second pass of parse_dependency_graph: run the edge-adding loop over
every node (only the immutable name and body of each original node feed the
computation, as in the source). -/
def addDependencyEdges (nodes : List Node) : List Node :=
  let statement_names := namesOf nodes
  nodes.foldl (fun g node => addEdgesForNode statement_names g node.name node.body) nodes

/-- RoomWithAViewCommand.parse_dependency_graph over a list of file
contents (directory walking and file reading are external collaborators). -/
def parse_dependency_graph (contents_list : List String) : List Node :=
  addDependencyEdges (parse_files contents_list)

/-- Dict lookup graph[name]. -/
def lookup (g : List Node) (name : String) : Option Node :=
  g.find? (fun n => n.name == name)

/-- One pass over the in-edge neighbors of the node being visited: look each
one up in the graph (a missing key is the Python KeyError, modelled as none)
and keep those the traversal enqueues - all of them when dependency_order is
false, otherwise only neighbors all of whose out_edges are visited. -/
def pushNeighbors (g : List Node) (dependency_order : Bool)
    (neighbors : List String) (visited : List String) : Option (List Node) :=
  match neighbors with
  | [] => some []
  | node_name :: rest =>
    match lookup g node_name with
    | none => none
    | some next_node =>
      match pushNeighbors g dependency_order rest visited with
      | none => none
      | some others =>
        if !dependency_order || next_node.out_edges.all (fun y => visited.contains y) then
          some (next_node :: others)
        else some others

/-- Largest in-edge list length over a node list (used for the fuel bound). -/
def maxInLen : List Node → Nat
  | [] => 0
  | n :: t => max n.in_edges.length (maxInLen t)

/-- Count of names mentioned by the graph or the queue and not yet visited. -/
def unvisitedCount (g queue : List Node) (visited : List String) : Nat :=
  ((namesOf g ++ namesOf queue).toFinset \ visited.toFinset).card

/-- Strictly decreasing measure of the traversal loop: every iteration pops
one queue element, and an iteration that grows the queue also visits a new
name from the finite name universe. -/
def travMeasure (g queue : List Node) (visited : List String) : Nat :=
  unvisitedCount g queue visited * (maxInLen (g ++ queue) + 1) + queue.length

/-- Outcome of the traversal: the visited nodes in visit order, or the
KeyError raised by a missing graph key, or fuel exhaustion (shown below to
be unreachable from the wrapper). -/
inductive TravOut where
  | ok (order : List Node)
  | keyError
  | fuelOut
deriving Repr, DecidableEq

/-- The while loop of RoomWithAViewCommand.traverse_graph, with explicit
fuel: pop the front node, skip it if already visited, otherwise mark it
visited, record the visit (this is where the visit_function runs), and
append the enqueued in-edge neighbors to the queue. -/
def traverse_fuel (g : List Node) (dependency_order : Bool) :
    Nat → List Node → List String → TravOut
  | _, [], _ => .ok []
  | 0, _ :: _, _ => .fuelOut
  | fuel + 1, active_node :: rest, visited_nodes =>
    if active_node.name ∈ visited_nodes then
      traverse_fuel g dependency_order fuel rest visited_nodes
    else
      let visited' := visited_nodes ++ [active_node.name]
      match pushNeighbors g dependency_order active_node.in_edges visited' with
      | none => .keyError
      | some pushed =>
        match traverse_fuel g dependency_order fuel (rest ++ pushed) visited' with
        | .ok order => .ok (active_node :: order)
        | other => other

/-- RoomWithAViewCommand.traverse_graph: run the loop from the starting
nodes with an empty visited set and sufficient fuel.  The visited name set
the source returns is the name list of the ok payload; the payload itself
lists the visited nodes in visit order, i.e. the order in which the
visit_function is invoked. -/
def traverse_graph (g : List Node) (starting_nodes : List Node)
    (dependency_order : Bool) : TravOut :=
  traverse_fuel g dependency_order (travMeasure g starting_nodes [] + 1) starting_nodes []

/-- The visited name set of a successful traversal. -/
def visitNames : TravOut → Option (List String)
  | .ok order => some (namesOf order)
  | _ => none

/-- The visit order of a traversal, empty on failure (helper for stating
concrete instances). -/
def okOrder : TravOut → List Node
  | .ok order => order
  | _ => []

/-- A value as the Python DB driver returns it: result rows are tuples of
column strings.  Heterogeneous Python equality compares types first, so a
tuple never equals a string. -/
inductive PyVal where
  | str (s : String)
  | tuple (items : List String)
deriving Repr, DecidableEq

/-- RoomWithAViewCommand.drop_node, with the SQL execution capability as an
oracle from SQL text to optional result rows (execute_sql returns the
fetched rows when the row count is at least one, else None).  The returned
list is the sequence of SQL statements issued, in order; none models the
ValueError on an unrecognized node type. -/
def drop_node (exec_results : String → Option (List PyVal)) (node : Node) :
    Option (List String) :=
  if node.statement_type == "view" then
    some ["DROP VIEW IF EXISTS " ++ node.name ++ " CASCADE"]
  else if node.statement_type == "function" then
    let probe := "select proname from pg_proc where proname = \x27" ++ node.name ++ "\x27"
    match exec_results probe with
    | none => some [probe]
    | some [] => some [probe]
    | some (row0 :: _) =>
      if row0 == PyVal.str node.name then
        some [probe,
              "DROP FUNCTION " ++ node.name ++ " " ++ node.arg_list.getD "None" ++ " CASCADE"]
      else some [probe]
  else none

/-- RoomWithAViewCommand.create_node: the single SQL statement issued, the
declaration immediately followed by the body. -/
def create_node (node : Node) : String :=
  node.declaration ++ node.body

/-- RoomWithAViewCommand.get_statements_from_arguments: require a selector,
extend the names with those declared in the requested files, and reject any
name absent from the graph (the source raises ValueError, modelled as the
error branch). -/
def get_statements_from_arguments (g : List Node) (view_names file_names : List String)
    (readFile : String → String) : Except String (List String) :=
  if view_names = [] ∧ file_names = [] then
    .error "Either --view-names or --file-names is required."
  else
    let statement_names :=
      view_names ++ file_names.flatMap (fun f => get_statements_from_file (readFile f))
    match statement_names.find? (fun nm => !(g.any (fun n => n.name == nm))) with
    | some nm => .error ("unrecognized view or function name: " ++ nm)
    | none => .ok statement_names

/-- RoomWithAViewCommand.drop_views: resolve the requested names, then drop
each named node; the result is the list of SQL statements issued, or the
error raised before any SQL was issued. -/
def drop_views (g : List Node) (exec_results : String → Option (List PyVal))
    (view_names file_names : List String) (readFile : String → String) :
    Except String (List String) :=
  match get_statements_from_arguments g view_names file_names readFile with
  | .error e => .error e
  | .ok statement_names =>
    match statement_names.foldlM (fun acc nm =>
        match lookup g nm with
        | none => none
        | some node => (drop_node exec_results node).map (fun s => acc ++ s)) [] with
    | none => .error "KeyError-or-ValueError"
    | some sql => .ok sql

/-- RoomWithAViewCommand.drop_all: drop every node in graph order. -/
def drop_all (g : List Node) (exec_results : String → Option (List PyVal)) :
    Option (List String) :=
  g.foldlM (fun acc node => (drop_node exec_results node).map (fun s => acc ++ s)) []

/-- The subgraph construction inside sync_views: one fresh node per
reachable name, copying the original node's record fields and keeping only
edges whose endpoints are inside the reachable name set. -/
def buildSubgraph (g : List Node) (subgraph_node_names : List String) :
    Option (List Node) :=
  subgraph_node_names.mapM (fun node_name =>
    (lookup g node_name).map (fun original_node =>
      { original_node with
        in_edges := original_node.in_edges.filter (fun edge => edge ∈ subgraph_node_names),
        out_edges := original_node.out_edges.filter (fun edge => edge ∈ subgraph_node_names) }))

/-- RoomWithAViewCommand.sync_views: resolve the selection, compute the
reachable set by an unordered traversal over in-edges, materialize the
restricted subgraph, drop the selected nodes, and recreate the whole
subgraph in dependency order from its leaves.  The ok payload is the full
sequence of SQL statements issued. -/
def sync_views (g : List Node) (exec_results : String → Option (List PyVal))
    (view_names file_names : List String) (readFile : String → String) :
    Except String (List String) :=
  match get_statements_from_arguments g view_names file_names readFile with
  | .error e => .error e
  | .ok statement_names =>
    match statement_names.mapM (lookup g) with
    | none => .error "KeyError"
    | some starting_nodes =>
      match traverse_graph g starting_nodes false with
      | .keyError => .error "KeyError"
      | .fuelOut => .error "unreachable fuel exhaustion"
      | .ok reached =>
        match buildSubgraph g (namesOf reached) with
        | none => .error "KeyError"
        | some subgraph =>
          match starting_nodes.foldlM (fun acc node =>
              (drop_node exec_results node).map (fun s => acc ++ s)) [] with
          | none => .error "ValueError"
          | some dropSql =>
            match traverse_graph subgraph
                (subgraph.filter (fun node => node.out_edges.isEmpty)) true with
            | .keyError => .error "KeyError"
            | .fuelOut => .error "unreachable fuel exhaustion"
            | .ok order => .ok (dropSql ++ order.map create_node)

/-- RoomWithAViewCommand.sync_all: dependency-ordered traversal of the whole
graph from the nodes with no dependencies, visiting each node with
drop_and_recreate_node.  The traversal outcome carries the visit order. -/
def sync_all (g : List Node) : TravOut :=
  traverse_graph g (g.filter (fun node => node.out_edges.isEmpty)) true

/-- Edge symmetry: membership of B in the out-edges of A coincides with
membership of A in the in-edges of B, over all node pairs of the graph. -/
def EdgeSymm (g : List Node) : Prop :=
  ∀ a ∈ g, ∀ b ∈ g, (b.name ∈ a.out_edges ↔ a.name ∈ b.in_edges)

/-- Every name mentioned by an edge of the graph is a key of the graph. -/
def EdgeClosed (g : List Node) : Prop :=
  ∀ n ∈ g, (∀ x ∈ n.in_edges, x ∈ namesOf g) ∧ (∀ x ∈ n.out_edges, x ∈ namesOf g)

/-- Topological soundness of a visit order relative to an initial visited
set: every out-edge of the j-th visited node names a node visited earlier. -/
def topoChain (visited : List String) (order : List Node) : Prop :=
  ∀ (j : Nat) (n : Node), order.get? j = some n →
    ∀ y ∈ n.out_edges, y ∈ visited ++ namesOf (order.take j)

/-- The dependency edge relation of a graph on names. -/
def hasEdge (g : List Node) (a b : String) : Prop :=
  ∃ n ∈ g, n.name = a ∧ b ∈ n.out_edges

/-- A graph is acyclic when no name depends on itself transitively. -/
def Acyclic (g : List Node) : Prop :=
  ∀ a, ¬ Relation.TransGen (hasEdge g) a a

/-- Names reachable from the seed nodes by following in-edges through the
graph, i.e. the seed names plus everything transitively dependent on them. -/
inductive ReachableIn (g : List Node) (seeds : List Node) : String → Prop
  | seed {n : Node} : n ∈ seeds → ReachableIn g seeds n.name
  | step {m x : String} {node : Node} : ReachableIn g seeds m →
      lookup g m = some node → x ∈ node.in_edges → ReachableIn g seeds x

/-- What the second pass of graph construction produces for one node, in
closed form: out-edges are its dependencies, in-edges the names of the
nodes having it among their dependencies. -/
def builtNode (nodes : List Node) (n : Node) : Node :=
  { n with
    out_edges := get_dependencies n.name n.body (namesOf nodes),
    in_edges := namesOf (nodes.filter (fun m =>
      decide (n.name ∈ get_dependencies m.name m.body (namesOf nodes)))) }

/-- Three view definitions: A references nothing, B references A, C
references B (the syncAll ordering scenario). -/
def contentsABC : String :=
  "create view A as select 1;\ncreate view B as select * from A;\ncreate view C as select * from B"

/-- The dependency graph built from the three-view file. -/
def gABC : List Node := parse_dependency_graph [contentsABC]

/-- A two-node graph where A depends on B (edge pair recorded on both
sides), with B never reachable from A along in-edges. -/
def nodeA : Node :=
  { name := "A", statement_type := "view", declaration := "create view A as",
    body := " select * from B", arg_list := none, comments := "",
    in_edges := [], out_edges := ["B"] }

/-- The node A of the two-node graph depends on. -/
def nodeB : Node :=
  { name := "B", statement_type := "view", declaration := "create view B as",
    body := " select 1", arg_list := none, comments := "",
    in_edges := ["A"], out_edges := [] }

/-- The two-node acyclic graph A depends on B. -/
def gAB : List Node := [nodeA, nodeB]

/-- Leaf node of the cyclic example graph. -/
def nodeL : Node :=
  { name := "L", statement_type := "view", declaration := "create view L as",
    body := " select 1", arg_list := none, comments := "",
    in_edges := ["X"], out_edges := [] }

/-- Node on the two-cycle of the cyclic example graph, also depending on
the leaf. -/
def nodeX : Node :=
  { name := "X", statement_type := "view", declaration := "create view X as",
    body := " select * from Y, L", arg_list := none, comments := "",
    in_edges := ["Y"], out_edges := ["Y", "L"] }

/-- Other node on the two-cycle of the cyclic example graph. -/
def nodeY : Node :=
  { name := "Y", statement_type := "view", declaration := "create view Y as",
    body := " select * from X", arg_list := none, comments := "",
    in_edges := ["X"], out_edges := ["X"] }

/-- A graph with a dependency cycle between X and Y and a leaf L. -/
def gCyc : List Node := [nodeL, nodeX, nodeY]

/-- A function node used to exercise drop_node. -/
def fnNode : Node :=
  { name := "f", statement_type := "function",
    declaration := "create function f (a int, b text) returns int as $$",
    body := " select 1 $$", arg_list := some "(a int, b text)", comments := "",
    in_edges := [], out_edges := [] }

/-- The catalog probe drop_node issues for the function named f. -/
def probeF : String := "select proname from pg_proc where proname = \x27f\x27"

/-- An execution oracle whose catalog holds the function f: the probe
returns the single row (f,), a one-element tuple. -/
def execWithF : String → Option (List PyVal) :=
  fun _ => some [PyVal.tuple ["f"]]

/-- An execution oracle whose catalog is empty: the probe returns no row. -/
def execNoRows : String → Option (List PyVal) :=
  fun _ => none

/-- A graph as the first pass leaves it: unique names, no edges yet. -/
def FreshGraph (g : List Node) : Prop :=
  (namesOf g).Nodup ∧ ∀ n ∈ g, n.in_edges = [] ∧ n.out_edges = []

/-- Intermediate state of the edge-adding loop after the nodes of the
prefix P have been processed (closed form used by the loop invariant). -/
def stateNode (statement_names : List String) (P : List Node) (n : Node) : Node :=
  { n with
    out_edges :=
      if n.name ∈ namesOf P then get_dependencies n.name n.body statement_names else [],
    in_edges := namesOf (P.filter (fun m =>
      decide (n.name ∈ get_dependencies m.name m.body statement_names))) }

theorem countWhile_le (p : Char → Bool) (cs : List Char) : countWhile p cs ≤ cs.length := by
  induction cs with
  | nil => simp [countWhile]
  | cons c cs ih =>
    simp only [countWhile, List.length_cons]
    split
    · omega
    · omega

theorem string_length_mk (l : List Char) : (String.mk l).length = l.length := rfl

theorem findOccAux_spec (cs : List Char) :
    ∀ (fuel lo p : Nat), findOccAux cs lo fuel = some p →
      lo ≤ p ∧ asOccAt cs p = true ∧ ∀ q, lo ≤ q → q < p → asOccAt cs q = false := by
  intro fuel
  induction fuel with
  | zero => intro lo p h; simp [findOccAux] at h
  | succ f ih =>
    intro lo p h
    simp only [findOccAux] at h
    by_cases hocc : asOccAt cs lo
    · rw [if_pos hocc] at h
      cases h
      exact ⟨Nat.le_refl _, hocc, fun q hq1 hq2 => absurd (Nat.lt_of_le_of_lt hq1 hq2) (Nat.lt_irrefl _)⟩
    · rw [if_neg hocc] at h
      obtain ⟨h1, h2, h3⟩ := ih (lo + 1) p h
      refine ⟨Nat.le_of_succ_le h1, h2, fun q hq1 hq2 => ?_⟩
      rcases Nat.eq_or_lt_of_le hq1 with heq | hlt
      · simpa [← heq] using (Bool.eq_false_iff.mpr hocc)
      · exact h3 q hlt hq2

theorem findFirstOcc_spec (cs : List Char) (lo p : Nat) (h : findFirstOcc cs lo = some p) :
    lo ≤ p ∧ asOccAt cs p = true ∧ ∀ q, lo ≤ q → q < p → asOccAt cs q = false :=
  findOccAux_spec cs _ lo p h

theorem matchView_split (cs : List Char) (nm decl bd : String)
    (h : matchView cs = some (nm, decl, bd)) :
    ∃ ns pos,
      headerNameStart "view".data cs = some ns ∧
      asOccAt cs pos = true ∧
      ns + nm.length + 1 ≤ pos ∧
      (∀ q, ns + nm.length + 1 ≤ q → q < pos → asOccAt cs q = false) ∧
      decl = ⟨cs.take (pos + 2)⟩ ∧ bd = ⟨cs.drop (pos + 2)⟩ := by
  unfold matchView at h
  cases hh : headerNameStart "view".data cs with
  | none => rw [hh] at h; exact absurd h (by simp)
  | some ns =>
    rw [hh] at h
    simp only [] at h
    by_cases hL : countWhile isWordChar (cs.drop ns) == 0
    · rw [if_pos hL] at h; exact absurd h (by simp)
    · rw [if_neg hL] at h
      cases hlast : (asPositionsFrom cs (ns + 2)).getLast? with
      | none => rw [hlast] at h; exact absurd h (by simp)
      | some lastOcc =>
        rw [hlast] at h
        simp only [] at h
        cases hf : findFirstOcc cs (ns + min (countWhile isWordChar (cs.drop ns)) (lastOcc - ns - 1) + 1) with
        | none => rw [hf] at h; exact absurd h (by simp)
        | some p =>
          rw [hf] at h
          obtain ⟨hnm, hdecl, hbd⟩ : nm = ⟨(cs.drop ns).take (min (countWhile isWordChar (cs.drop ns)) (lastOcc - ns - 1))⟩ ∧ decl = ⟨cs.take (p + 2)⟩ ∧ bd = ⟨cs.drop (p + 2)⟩ := by
            have := h
            simp only [Option.some.injEq, Prod.mk.injEq] at this
            exact ⟨this.1.symm, this.2.1.symm, this.2.2.symm⟩
          have hklen : nm.length = min (countWhile isWordChar (cs.drop ns)) (lastOcc - ns - 1) := by
            rw [hnm, string_length_mk, List.length_take, List.length_drop]
            have h1 := countWhile_le isWordChar (cs.drop ns)
            rw [List.length_drop] at h1
            omega
          obtain ⟨hp1, hp2, hp3⟩ := findFirstOcc_spec cs _ p hf
          refine ⟨ns, p, rfl, hp2, ?_, ?_, hdecl, hbd⟩
          · omega
          · intro q hq1 hq2
            exact hp3 q (by omega) hq2

theorem parse_statement_view_matchView (s : String) (cm : String) (p : ParsedStmt)
    (h : parse_statement s = { comments := cm, parsed := some p })
    (hty : p.statement_type = "view") :
    matchView (normalizeStatement s) = some (p.name, p.declaration, p.body) := by
  unfold parse_statement at h
  split at h
  · simp at h
  · dsimp only at h
    split at h
    · simp at h
    · split at h
      next nm decl bd hmv =>
        simp only [StatementData.mk.injEq, Option.some.injEq] at h
        rw [← h.2]
        exact hmv
      next hmv =>
        split at h
        next nm args decl bd hmf =>
          simp only [StatementData.mk.injEq, Option.some.injEq] at h
          rw [← h.2] at hty
          simp at hty
        next => simp at h

/-- C3: the claim is false on the code.  For the chunk
create view v x as y as z, the view regex is lazy, so the declaration ends
at the first as after the name (index 16), not at the final as occurrence
(index 21): the parsed declaration is create view v x as, which differs
from the text through the final as. -/
theorem C3_counterexample :
    (parse_statement "create view v x as y as z").parsed =
      some { statement_type := "view", name := "v", declaration := "create view v x as",
             body := " y as z", arg_list := none } ∧
    (asPositionsFrom (normalizeStatement "create view v x as y as z") 0).getLast? = some 21 ∧
    "create view v x as" ≠
      String.mk ((normalizeStatement "create view v x as y as z").take (21 + 2)) := by
  refine ⟨by decide, by decide, by decide⟩

/-- C3 (amended): for every chunk parse_statement recognizes as a view, the
declaration is the text of the normalized statement from the start through
the first occurrence of the keyword as that begins at least one character
past the matched name, and the body is everything after that occurrence. -/
theorem C3_view_declaration_to_first_as (s cm : String) (p : ParsedStmt)
    (h : parse_statement s = { comments := cm, parsed := some p })
    (hty : p.statement_type = "view") :
    ∃ ns pos,
      headerNameStart "view".data (normalizeStatement s) = some ns ∧
      asOccAt (normalizeStatement s) pos = true ∧
      ns + p.name.length + 1 ≤ pos ∧
      (∀ q, ns + p.name.length + 1 ≤ q → q < pos → asOccAt (normalizeStatement s) q = false) ∧
      p.declaration = ⟨(normalizeStatement s).take (pos + 2)⟩ ∧
      p.body = ⟨(normalizeStatement s).drop (pos + 2)⟩ ∧
      p.declaration.data ++ p.body.data = normalizeStatement s := by
  have hm := parse_statement_view_matchView s cm p h hty
  obtain ⟨ns, pos, h1, h2, h3, h4, h5, h6⟩ := matchView_split _ _ _ _ hm
  refine ⟨ns, pos, h1, h2, h3, h4, h5, h6, ?_⟩
  rw [h5, h6]
  exact List.take_append_drop _ _

theorem C3_view_declaration_to_first_as_witness :
    ∃ ns pos,
      headerNameStart "view".data (normalizeStatement "create view myview as select 1") = some ns ∧
      asOccAt (normalizeStatement "create view myview as select 1") pos = true ∧
      ns + "myview".length + 1 ≤ pos ∧
      (∀ q, ns + "myview".length + 1 ≤ q → q < pos →
        asOccAt (normalizeStatement "create view myview as select 1") q = false) ∧
      "create view myview as" =
        String.mk ((normalizeStatement "create view myview as select 1").take (pos + 2)) ∧
      " select 1" =
        String.mk ((normalizeStatement "create view myview as select 1").drop (pos + 2)) ∧
      "create view myview as".data ++ " select 1".data =
        normalizeStatement "create view myview as select 1" :=
  C3_view_declaration_to_first_as "create view myview as select 1" ""
    { statement_type := "view", name := "myview", declaration := "create view myview as",
      body := " select 1", arg_list := none } (by decide) rfl

/-- C1: code bug.  For a function node whose catalog probe returns the row
(f,), drop_node still issues no DROP FUNCTION statement: the source compares
the fetched row, a tuple, against the bare name string, and a tuple never
equals a string, so the existence branch is unreachable.  The absent case
(no row) behaves as the claim says. -/
theorem C1_function_drop_skipped :
    drop_node execWithF fnNode = some [probeF] ∧
    drop_node execNoRows fnNode = some [probeF] ∧
    PyVal.tuple ["f"] ≠ PyVal.str "f" := by
  refine ⟨by decide, by decide, by decide⟩

theorem mem_namesOf {g : List Node} {x : String} : x ∈ namesOf g ↔ ∃ n ∈ g, n.name = x := by
  simp [namesOf, List.mem_map]

theorem any_name_iff {g : List Node} {x : String} :
    (g.any (fun n => n.name == x)) = true ↔ x ∈ namesOf g := by
  rw [List.any_eq_true]
  simp [mem_namesOf]

theorem get_statements_error_cases (g : List Node) (view_names file_names : List String)
    (readFile : String → String)
    (h : (view_names = [] ∧ file_names = []) ∨
      (∃ nm ∈ view_names ++ file_names.flatMap (fun f => get_statements_from_file (readFile f)),
        nm ∉ namesOf g)) :
    ∃ e, get_statements_from_arguments g view_names file_names readFile = .error e := by
  unfold get_statements_from_arguments
  rcases h with hc | ⟨nm, hmem, hnot⟩
  · rw [if_pos hc]
    exact ⟨_, rfl⟩
  · by_cases hc : view_names = [] ∧ file_names = []
    · rw [if_pos hc]
      exact ⟨_, rfl⟩
    · rw [if_neg hc]
      dsimp only
      cases hf : (view_names ++ file_names.flatMap
          (fun f => get_statements_from_file (readFile f))).find?
          (fun nm => !(g.any (fun n => n.name == nm))) with
      | some x => exact ⟨_, rfl⟩
      | none =>
        have hp := List.find?_eq_none.mp hf nm hmem
        have hp' : (g.any (fun n => n.name == nm)) = true := by simpa using hp
        exact absurd (any_name_iff.mp hp') hnot

/-- C8: for drop(selected) and sync(selected), a missing selector or a
requested name absent from the graph makes the operation fail with an error
before any SQL statement is issued (the error branch carries no SQL; the
issued-statement list exists only in the ok branch). -/
theorem C8_error_before_sql (g : List Node) (ex : String → Option (List PyVal))
    (view_names file_names : List String) (readFile : String → String)
    (h : (view_names = [] ∧ file_names = []) ∨
      (∃ nm ∈ view_names ++ file_names.flatMap (fun f => get_statements_from_file (readFile f)),
        nm ∉ namesOf g)) :
    (∃ e, drop_views g ex view_names file_names readFile = .error e) ∧
    (∃ e, sync_views g ex view_names file_names readFile = .error e) := by
  obtain ⟨e, he⟩ := get_statements_error_cases g view_names file_names readFile h
  refine ⟨⟨e, ?_⟩, ⟨e, ?_⟩⟩
  · unfold drop_views
    rw [he]
  · unfold sync_views
    rw [he]

theorem C8_error_before_sql_witness :
    ((∃ nm ∈ ["ghost"] ++ ([] : List String).flatMap
        (fun f => get_statements_from_file ((fun _ => "") f)), nm ∉ namesOf gABC) ∧
      (∃ e, drop_views gABC execNoRows ["ghost"] [] (fun _ => "") = .error e) ∧
      (∃ e, sync_views gABC execNoRows ["ghost"] [] (fun _ => "") = .error e)) ∧
    ((["x"] = ([] : List String) ∧ (["f1"] : List String) = []) ∨
      (∃ nm ∈ ["x"] ++ (["f1"] : List String).flatMap
        (fun f => get_statements_from_file ((fun _ => contentsABC) f)), nm ∉ namesOf gABC)) ∧
    (∃ e, drop_views gABC execNoRows ["x"] ["f1"] (fun _ => contentsABC) = .error e) := by
  refine ⟨⟨by decide, C8_error_before_sql gABC execNoRows ["ghost"] [] (fun _ => "")
      (Or.inr (by decide))⟩, Or.inr (by decide), ?_⟩
  exact (C8_error_before_sql gABC execNoRows ["x"] ["f1"] (fun _ => contentsABC)
      (Or.inr (by decide))).1

theorem lookup_spec {g : List Node} {x : String} {n : Node} (h : lookup g x = some n) :
    n ∈ g ∧ n.name = x := by
  refine ⟨List.mem_of_find?_eq_some h, ?_⟩
  have := List.find?_some h
  simpa using this

theorem lookup_self {g : List Node} (hg : (namesOf g).Nodup) {n : Node} (hn : n ∈ g) :
    lookup g n.name = some n := by
  induction g with
  | nil => cases hn
  | cons h t ih =>
    rw [namesOf, List.map_cons, List.nodup_cons] at hg
    rcases List.mem_cons.mp hn with rfl | hmem
    · simp [lookup, List.find?]
    · have hne : (h.name == n.name) = false := by
        rw [beq_eq_false_iff_ne]
        intro he
        exact hg.1 (he ▸ mem_namesOf.mpr ⟨n, hmem, rfl⟩)
      simp only [lookup, List.find?, hne]
      exact ih hg.2 hmem

theorem lookup_isSome {g : List Node} {x : String} (h : x ∈ namesOf g) :
    ∃ n, lookup g x = some n := by
  induction g with
  | nil => simp [namesOf] at h
  | cons hd t ih =>
    by_cases he : (hd.name == x) = true
    · exact ⟨hd, List.find?_cons_of_pos _ he⟩
    · have hx : x ∈ namesOf t := by
        rcases mem_namesOf.mp h with ⟨n, hn, rfl⟩
        rcases List.mem_cons.mp hn with rfl | hmem
        · simp at he
        · exact mem_namesOf.mpr ⟨n, hmem, rfl⟩
      obtain ⟨m, hm⟩ := ih hx
      refine ⟨m, ?_⟩
      have he' : (hd.name == x) = false := by simpa using he
      simp only [lookup, List.find?, he']
      exact hm

theorem pushNeighbors_mem {g : List Node} {d : Bool} {ns visited : List String}
    {l : List Node} (h : pushNeighbors g d ns visited = some l) :
    ∀ n ∈ l, n ∈ g ∧ lookup g n.name = some n ∧ n.name ∈ ns := by
  induction ns generalizing l with
  | nil =>
    simp only [pushNeighbors, Option.some.injEq] at h
    subst h
    intro n hn
    cases hn
  | cons x rest ih =>
    simp only [pushNeighbors] at h
    cases hx : lookup g x with
    | none => rw [hx] at h; exact absurd h (by simp)
    | some nx =>
      rw [hx] at h
      cases hrest : pushNeighbors g d rest visited with
      | none => rw [hrest] at h; exact absurd h (by simp)
      | some others =>
        rw [hrest] at h
        dsimp only at h
        obtain ⟨hxg, hxnm⟩ := lookup_spec hx
        have hxl : lookup g nx.name = some nx := by rw [hxnm]; exact hx
        by_cases hcond : (!d || nx.out_edges.all (fun y => visited.contains y)) = true
        · rw [if_pos hcond] at h
          cases h
          intro n hn
          rcases List.mem_cons.mp hn with rfl | hmem
          · exact ⟨hxg, hxl, by rw [hxnm]; exact List.mem_cons_self _ _⟩
          · obtain ⟨h1, h2, h3⟩ := ih hrest n hmem
            exact ⟨h1, h2, List.mem_cons_of_mem _ h3⟩
        · rw [if_neg hcond] at h
          cases h
          intro n hn
          obtain ⟨h1, h2, h3⟩ := ih hrest n hn
          exact ⟨h1, h2, List.mem_cons_of_mem _ h3⟩

theorem pushNeighbors_length {g : List Node} {d : Bool} {ns visited : List String}
    {l : List Node} (h : pushNeighbors g d ns visited = some l) :
    l.length ≤ ns.length := by
  induction ns generalizing l with
  | nil =>
    simp only [pushNeighbors, Option.some.injEq] at h
    subst h
    simp
  | cons x rest ih =>
    simp only [pushNeighbors] at h
    cases hx : lookup g x with
    | none => rw [hx] at h; exact absurd h (by simp)
    | some nx =>
      rw [hx] at h
      cases hrest : pushNeighbors g d rest visited with
      | none => rw [hrest] at h; exact absurd h (by simp)
      | some others =>
        rw [hrest] at h
        dsimp only at h
        have hle := ih hrest
        by_cases hcond : (!d || nx.out_edges.all (fun y => visited.contains y)) = true
        · rw [if_pos hcond] at h
          cases h
          simpa using Nat.succ_le_succ hle
        · rw [if_neg hcond] at h
          cases h
          exact Nat.le_succ_of_le hle

theorem pushNeighbors_isSome {g : List Node} {d : Bool} {ns visited : List String}
    (h : ∀ x ∈ ns, x ∈ namesOf g) :
    ∃ l, pushNeighbors g d ns visited = some l := by
  induction ns with
  | nil => exact ⟨[], rfl⟩
  | cons x rest ih =>
    obtain ⟨nx, hx⟩ := lookup_isSome (h x (List.mem_cons_self _ _))
    obtain ⟨others, hrest⟩ := ih (fun y hy => h y (List.mem_cons_of_mem _ hy))
    refine ⟨if (!d || nx.out_edges.all (fun y => visited.contains y)) = true
            then nx :: others else others, ?_⟩
    simp only [pushNeighbors, hx, hrest]
    by_cases hcond : (!d || nx.out_edges.all (fun y => visited.contains y)) = true
    · rw [if_pos hcond, if_pos hcond]
    · rw [if_neg hcond, if_neg hcond]

theorem pushNeighbors_dep_visited {g : List Node} {ns visited : List String}
    {l : List Node} (h : pushNeighbors g true ns visited = some l) :
    ∀ n ∈ l, ∀ y ∈ n.out_edges, y ∈ visited := by
  induction ns generalizing l with
  | nil =>
    simp only [pushNeighbors, Option.some.injEq] at h
    subst h
    intro n hn
    cases hn
  | cons x rest ih =>
    simp only [pushNeighbors] at h
    cases hx : lookup g x with
    | none => rw [hx] at h; exact absurd h (by simp)
    | some nx =>
      rw [hx] at h
      cases hrest : pushNeighbors g true rest visited with
      | none => rw [hrest] at h; exact absurd h (by simp)
      | some others =>
        rw [hrest] at h
        dsimp only at h
        by_cases hcond : (!true || nx.out_edges.all (fun y => visited.contains y)) = true
        · rw [if_pos hcond] at h
          cases h
          intro n hn
          rcases List.mem_cons.mp hn with rfl | hmem
          · intro y hy
            simp only [Bool.not_true, Bool.false_or, List.all_eq_true] at hcond
            exact List.mem_of_elem_eq_true (hcond y hy)
          · exact ih hrest n hmem
        · rw [if_neg hcond] at h
          cases h
          exact ih hrest

theorem pushNeighbors_reach_all {g : List Node} {ns visited : List String}
    {l : List Node} (h : pushNeighbors g false ns visited = some l) :
    ∀ x ∈ ns, ∃ n ∈ l, n.name = x := by
  induction ns generalizing l with
  | nil => intro x hx; cases hx
  | cons x rest ih =>
    simp only [pushNeighbors] at h
    cases hx : lookup g x with
    | none => rw [hx] at h; exact absurd h (by simp)
    | some nx =>
      rw [hx] at h
      cases hrest : pushNeighbors g false rest visited with
      | none => rw [hrest] at h; exact absurd h (by simp)
      | some others =>
        rw [hrest] at h
        dsimp only at h
        rw [if_pos (by simp)] at h
        cases h
        intro y hy
        rcases List.mem_cons.mp hy with rfl | hmem
        · exact ⟨nx, List.mem_cons_self _ _, (lookup_spec hx).2⟩
        · obtain ⟨n, hn, hnm⟩ := ih hrest y hmem
          exact ⟨n, List.mem_cons_of_mem _ hn, hnm⟩

theorem maxInLen_mem {l : List Node} {n : Node} (h : n ∈ l) :
    n.in_edges.length ≤ maxInLen l := by
  induction l with
  | nil => cases h
  | cons hd t ih =>
    rcases List.mem_cons.mp h with rfl | hm
    · exact le_max_left _ _
    · exact le_trans (ih hm) (le_max_right _ _)

theorem maxInLen_mono {l2 l1 : List Node} (h : ∀ n ∈ l2, n ∈ l1) :
    maxInLen l2 ≤ maxInLen l1 := by
  induction l2 with
  | nil => exact Nat.zero_le _
  | cons hd t ih =>
    simp only [maxInLen]
    exact max_le (maxInLen_mem (h hd (List.mem_cons_self _ _)))
      (ih fun n hn => h n (List.mem_cons_of_mem _ hn))

theorem unvisited_mono (g q1 q2 : List Node) (v1 v2 : List String)
    (hq : ∀ n ∈ q2, n ∈ g ∨ n ∈ q1) (hv : ∀ x ∈ v1, x ∈ v2) :
    unvisitedCount g q2 v2 ≤ unvisitedCount g q1 v1 := by
  apply Finset.card_le_card
  apply Finset.sdiff_subset_sdiff
  · intro x hx
    simp only [List.mem_toFinset, List.mem_append] at hx ⊢
    rcases hx with hg | hq2
    · exact Or.inl hg
    · rcases mem_namesOf.mp hq2 with ⟨n, hn, rfl⟩
      rcases hq n hn with h | h
      · exact Or.inl (mem_namesOf.mpr ⟨n, h, rfl⟩)
      · exact Or.inr (mem_namesOf.mpr ⟨n, h, rfl⟩)
  · intro x hx
    simp only [List.mem_toFinset] at hx ⊢
    exact hv x hx

theorem unvisited_strict (g : List Node) (a : Node) (rest q2 : List Node) (v : List String)
    (hq : ∀ n ∈ q2, n ∈ g ∨ n ∈ a :: rest) (ha : a.name ∉ v) :
    unvisitedCount g q2 (v ++ [a.name]) < unvisitedCount g (a :: rest) v := by
  have hmem : a.name ∈ (namesOf g ++ namesOf (a :: rest)).toFinset \ v.toFinset := by
    rw [Finset.mem_sdiff]
    constructor
    · simp only [List.mem_toFinset, List.mem_append]
      exact Or.inr (mem_namesOf.mpr ⟨a, List.mem_cons_self _ _, rfl⟩)
    · simpa [List.mem_toFinset] using ha
  have hsub : (namesOf g ++ namesOf q2).toFinset \ (v ++ [a.name]).toFinset ⊆
      ((namesOf g ++ namesOf (a :: rest)).toFinset \ v.toFinset).erase a.name := by
    intro x hx
    rw [Finset.mem_sdiff] at hx
    rw [Finset.mem_erase, Finset.mem_sdiff]
    obtain ⟨hx1, hx2⟩ := hx
    simp only [List.mem_toFinset, List.mem_append] at hx1 hx2
    push_neg at hx2
    refine ⟨hx2.2 ∘ fun he => List.mem_singleton.mpr he, ?_, by
      simpa [List.mem_toFinset] using hx2.1⟩
    simp only [List.mem_toFinset, List.mem_append]
    rcases hx1 with hg | hq2
    · exact Or.inl hg
    · rcases mem_namesOf.mp hq2 with ⟨n, hn, rfl⟩
      rcases hq n hn with h | h
      · exact Or.inl (mem_namesOf.mpr ⟨n, h, rfl⟩)
      · exact Or.inr (mem_namesOf.mpr ⟨n, h, rfl⟩)
  calc unvisitedCount g q2 (v ++ [a.name])
      ≤ (((namesOf g ++ namesOf (a :: rest)).toFinset \ v.toFinset).erase a.name).card :=
        Finset.card_le_card hsub
    _ < ((namesOf g ++ namesOf (a :: rest)).toFinset \ v.toFinset).card :=
        Finset.card_erase_lt_of_mem hmem

theorem travMeasure_skip (g : List Node) (a : Node) (rest : List Node) (v : List String) :
    travMeasure g rest v < travMeasure g (a :: rest) v := by
  have h1 : unvisitedCount g rest v ≤ unvisitedCount g (a :: rest) v :=
    unvisited_mono g (a :: rest) rest v v
      (fun n hn => Or.inr (List.mem_cons_of_mem _ hn)) (fun x hx => hx)
  have h2 : maxInLen (g ++ rest) ≤ maxInLen (g ++ a :: rest) := by
    apply maxInLen_mono
    intro n hn
    rcases List.mem_append.mp hn with h | h
    · exact List.mem_append.mpr (Or.inl h)
    · exact List.mem_append.mpr (Or.inr (List.mem_cons_of_mem _ h))
  have h3 : unvisitedCount g rest v * (maxInLen (g ++ rest) + 1) ≤
      unvisitedCount g (a :: rest) v * (maxInLen (g ++ a :: rest) + 1) :=
    Nat.mul_le_mul h1 (Nat.succ_le_succ h2)
  unfold travMeasure
  simp only [List.length_cons]
  omega

theorem travMeasure_visit (g : List Node) (d : Bool) (a : Node) (rest pushed : List Node)
    (v : List String)
    (hp : pushNeighbors g d a.in_edges (v ++ [a.name]) = some pushed)
    (ha : a.name ∉ v) :
    travMeasure g (rest ++ pushed) (v ++ [a.name]) + 2 ≤ travMeasure g (a :: rest) v := by
  have hpush := pushNeighbors_mem hp
  have h1 : unvisitedCount g (rest ++ pushed) (v ++ [a.name]) <
      unvisitedCount g (a :: rest) v := by
    apply unvisited_strict g a rest (rest ++ pushed) v ?_ ha
    intro n hn
    rcases List.mem_append.mp hn with h | h
    · exact Or.inr (List.mem_cons_of_mem _ h)
    · exact Or.inl (hpush n h).1
  have h2 : maxInLen (g ++ (rest ++ pushed)) ≤ maxInLen (g ++ a :: rest) := by
    apply maxInLen_mono
    intro n hn
    rcases List.mem_append.mp hn with h | h
    · exact List.mem_append.mpr (Or.inl h)
    · rcases List.mem_append.mp h with h' | h'
      · exact List.mem_append.mpr (Or.inr (List.mem_cons_of_mem _ h'))
      · exact List.mem_append.mpr (Or.inl (hpush n h').1)
  have h3 : pushed.length ≤ a.in_edges.length := pushNeighbors_length hp
  have h4 : a.in_edges.length ≤ maxInLen (g ++ a :: rest) :=
    maxInLen_mem (List.mem_append.mpr (Or.inr (List.mem_cons_self _ _)))
  unfold travMeasure
  have h5 : unvisitedCount g (rest ++ pushed) (v ++ [a.name]) *
        (maxInLen (g ++ (rest ++ pushed)) + 1) ≤
      unvisitedCount g (rest ++ pushed) (v ++ [a.name]) * (maxInLen (g ++ a :: rest) + 1) :=
    Nat.mul_le_mul (Nat.le_refl _) (Nat.succ_le_succ h2)
  have h6 : (unvisitedCount g (rest ++ pushed) (v ++ [a.name]) + 1) *
        (maxInLen (g ++ a :: rest) + 1) ≤
      unvisitedCount g (a :: rest) v * (maxInLen (g ++ a :: rest) + 1) :=
    Nat.mul_le_mul (by omega) (Nat.le_refl _)
  have h7 : (unvisitedCount g (rest ++ pushed) (v ++ [a.name]) + 1) *
        (maxInLen (g ++ a :: rest) + 1) =
      unvisitedCount g (rest ++ pushed) (v ++ [a.name]) * (maxInLen (g ++ a :: rest) + 1) +
        maxInLen (g ++ a :: rest) + 1 := by ring
  simp only [List.length_cons, List.length_append]
  omega

theorem traverse_fuel_enough (g : List Node) (d : Bool) :
    ∀ (fuel : Nat) (q : List Node) (v : List String),
      travMeasure g q v < fuel → traverse_fuel g d fuel q v ≠ .fuelOut := by
  intro fuel
  induction fuel with
  | zero => intro q v h; exact absurd h (Nat.not_lt_zero _)
  | succ f ih =>
    intro q v h
    match q with
    | [] => simp [traverse_fuel]
    | a :: rest =>
      simp only [traverse_fuel]
      by_cases hv : a.name ∈ v
      · rw [if_pos hv]
        have := travMeasure_skip g a rest v
        exact ih rest v (by omega)
      · rw [if_neg hv]
        cases hp : pushNeighbors g d a.in_edges (v ++ [a.name]) with
        | none => simp
        | some pushed =>
          dsimp only
          have h2 := travMeasure_visit g d a rest pushed v hp hv
          have hrec := ih (rest ++ pushed) (v ++ [a.name]) (by omega)
          cases hres : traverse_fuel g d f (rest ++ pushed) (v ++ [a.name]) with
          | ok order => simp [hres]
          | keyError => simp [hres]
          | fuelOut => exact absurd hres hrec

/-- The traversal wrapper never exhausts its fuel: the loop always
terminates within the computed bound. -/
theorem traverse_graph_not_fuelOut (g : List Node) (s : List Node) (d : Bool) :
    traverse_graph g s d ≠ .fuelOut :=
  traverse_fuel_enough g d _ s [] (Nat.lt_succ_self _)

theorem namesOf_cons (a : Node) (l : List Node) : namesOf (a :: l) = a.name :: namesOf l := rfl

theorem namesOf_append (l1 l2 : List Node) : namesOf (l1 ++ l2) = namesOf l1 ++ namesOf l2 :=
  List.map_append _ _ _

theorem traverse_fuel_main (g : List Node) (d : Bool) :
    ∀ (fuel : Nat) (q : List Node) (v : List String) (order : List Node),
      traverse_fuel g d fuel q v = .ok order →
      (∀ n ∈ q, n.name ∈ v ∨ n.name ∈ namesOf order) ∧
      ((namesOf order).Nodup ∧ ∀ x ∈ namesOf order, x ∉ v) ∧
      (d = false → ∀ n ∈ order, ∀ x ∈ n.in_edges, x ∈ v ++ namesOf order) := by
  intro fuel
  induction fuel with
  | zero =>
    intro q v order h
    cases q with
    | nil =>
      simp only [traverse_fuel, TravOut.ok.injEq] at h
      subst h
      refine ⟨fun n hn => absurd hn (List.not_mem_nil _), ⟨List.nodup_nil, ?_⟩, ?_⟩
      · intro x hx; cases hx
      · intro _ n hn; cases hn
    | cons a rest => simp [traverse_fuel] at h
  | succ f ih =>
    intro q v order h
    cases q with
    | nil =>
      simp only [traverse_fuel, TravOut.ok.injEq] at h
      subst h
      refine ⟨fun n hn => absurd hn (List.not_mem_nil _), ⟨List.nodup_nil, ?_⟩, ?_⟩
      · intro x hx; cases hx
      · intro _ n hn; cases hn
    | cons a rest =>
      simp only [traverse_fuel] at h
      by_cases hv : a.name ∈ v
      · rw [if_pos hv] at h
        obtain ⟨ih1, ih2, ih3⟩ := ih rest v order h
        refine ⟨?_, ih2, ih3⟩
        intro n hn
        rcases List.mem_cons.mp hn with rfl | hm
        · exact Or.inl hv
        · exact ih1 n hm
      · rw [if_neg hv] at h
        cases hp : pushNeighbors g d a.in_edges (v ++ [a.name]) with
        | none => rw [hp] at h; exact absurd h (by simp)
        | some pushed =>
          rw [hp] at h
          dsimp only at h
          cases hres : traverse_fuel g d f (rest ++ pushed) (v ++ [a.name]) with
          | keyError => rw [hres] at h; exact absurd h (by simp)
          | fuelOut => rw [hres] at h; exact absurd h (by simp)
          | ok ord2 =>
            rw [hres] at h
            dsimp only at h
            have horder : order = a :: ord2 := (TravOut.ok.inj h).symm
            subst horder
            obtain ⟨ih1, ⟨ihn, ihv⟩, ih3⟩ := ih (rest ++ pushed) (v ++ [a.name]) ord2 hres
            refine ⟨?_, ⟨?_, ?_⟩, ?_⟩
            · intro n hn
              rcases List.mem_cons.mp hn with rfl | hm
              · exact Or.inr (by rw [namesOf_cons]; exact List.mem_cons_self _ _)
              · rcases ih1 n (List.mem_append.mpr (Or.inl hm)) with h1 | h1
                · rcases List.mem_append.mp h1 with h2 | h2
                  · exact Or.inl h2
                  · rw [List.mem_singleton.mp h2, namesOf_cons]
                    exact Or.inr (List.mem_cons_self _ _)
                · rw [namesOf_cons]
                  exact Or.inr (List.mem_cons_of_mem _ h1)
            · rw [namesOf_cons, List.nodup_cons]
              refine ⟨?_, ihn⟩
              intro hmem
              exact absurd (List.mem_append.mpr (Or.inr (List.mem_singleton.mpr rfl)))
                (ihv a.name hmem)
            · rw [namesOf_cons]
              intro x hx
              rcases List.mem_cons.mp hx with rfl | hm
              · exact hv
              · intro hxv
                exact ihv x hm (List.mem_append.mpr (Or.inl hxv))
            · intro hd n hn y hy
              rcases List.mem_cons.mp hn with rfl | hm
              · subst hd
                obtain ⟨nx, hnx, hnm⟩ := pushNeighbors_reach_all hp y hy
                rcases ih1 nx (List.mem_append.mpr (Or.inr hnx)) with h1 | h1
                · rcases List.mem_append.mp (hnm ▸ h1) with h2 | h2
                  · exact List.mem_append.mpr (Or.inl h2)
                  · rw [List.mem_singleton.mp h2, namesOf_cons]
                    exact List.mem_append.mpr (Or.inr (List.mem_cons_self _ _))
                · rw [namesOf_cons]
                  exact List.mem_append.mpr (Or.inr (List.mem_cons_of_mem _ (hnm ▸ h1)))
              · have := ih3 hd n hm y hy
                rcases List.mem_append.mp this with h1 | h1
                · rcases List.mem_append.mp h1 with h2 | h2
                  · exact List.mem_append.mpr (Or.inl h2)
                  · rw [List.mem_singleton.mp h2, namesOf_cons]
                    exact List.mem_append.mpr (Or.inr (List.mem_cons_self _ _))
                · rw [namesOf_cons]
                  exact List.mem_append.mpr (Or.inr (List.mem_cons_of_mem _ h1))

theorem traverse_fuel_lookup_inv (g : List Node) (d : Bool) :
    ∀ (fuel : Nat) (q : List Node) (v : List String) (order : List Node),
      (∀ n ∈ q, lookup g n.name = some n) →
      traverse_fuel g d fuel q v = .ok order →
      ∀ n ∈ order, lookup g n.name = some n := by
  intro fuel
  induction fuel with
  | zero =>
    intro q v order hq h
    cases q with
    | nil =>
      simp only [traverse_fuel, TravOut.ok.injEq] at h
      subst h
      intro n hn; cases hn
    | cons a rest => simp [traverse_fuel] at h
  | succ f ih =>
    intro q v order hq h
    cases q with
    | nil =>
      simp only [traverse_fuel, TravOut.ok.injEq] at h
      subst h
      intro n hn; cases hn
    | cons a rest =>
      simp only [traverse_fuel] at h
      by_cases hv : a.name ∈ v
      · rw [if_pos hv] at h
        exact ih rest v order (fun n hn => hq n (List.mem_cons_of_mem _ hn)) h
      · rw [if_neg hv] at h
        cases hp : pushNeighbors g d a.in_edges (v ++ [a.name]) with
        | none => rw [hp] at h; exact absurd h (by simp)
        | some pushed =>
          rw [hp] at h
          dsimp only at h
          cases hres : traverse_fuel g d f (rest ++ pushed) (v ++ [a.name]) with
          | keyError => rw [hres] at h; exact absurd h (by simp)
          | fuelOut => rw [hres] at h; exact absurd h (by simp)
          | ok ord2 =>
            rw [hres] at h
            dsimp only at h
            have horder : order = a :: ord2 := (TravOut.ok.inj h).symm
            subst horder
            have hq2 : ∀ n ∈ rest ++ pushed, lookup g n.name = some n := by
              intro n hn
              rcases List.mem_append.mp hn with h1 | h1
              · exact hq n (List.mem_cons_of_mem _ h1)
              · exact (pushNeighbors_mem hp n h1).2.1
            intro n hn
            rcases List.mem_cons.mp hn with rfl | hm
            · exact hq n (List.mem_cons_self _ _)
            · exact ih (rest ++ pushed) (v ++ [a.name]) ord2 hq2 hres n hm

theorem traverse_fuel_sound (g : List Node) (d : Bool) (R : String → Prop)
    (hstep : ∀ (m x : String) (node : Node),
      R m → lookup g m = some node → x ∈ node.in_edges → R x) :
    ∀ (fuel : Nat) (q : List Node) (v : List String) (order : List Node),
      (∀ n ∈ q, lookup g n.name = some n) →
      (∀ n ∈ q, R n.name) →
      traverse_fuel g d fuel q v = .ok order →
      ∀ n ∈ order, R n.name := by
  intro fuel
  induction fuel with
  | zero =>
    intro q v order hq hr h
    cases q with
    | nil =>
      simp only [traverse_fuel, TravOut.ok.injEq] at h
      subst h
      intro n hn; cases hn
    | cons a rest => simp [traverse_fuel] at h
  | succ f ih =>
    intro q v order hq hr h
    cases q with
    | nil =>
      simp only [traverse_fuel, TravOut.ok.injEq] at h
      subst h
      intro n hn; cases hn
    | cons a rest =>
      simp only [traverse_fuel] at h
      by_cases hv : a.name ∈ v
      · rw [if_pos hv] at h
        exact ih rest v order (fun n hn => hq n (List.mem_cons_of_mem _ hn))
          (fun n hn => hr n (List.mem_cons_of_mem _ hn)) h
      · rw [if_neg hv] at h
        cases hp : pushNeighbors g d a.in_edges (v ++ [a.name]) with
        | none => rw [hp] at h; exact absurd h (by simp)
        | some pushed =>
          rw [hp] at h
          dsimp only at h
          cases hres : traverse_fuel g d f (rest ++ pushed) (v ++ [a.name]) with
          | keyError => rw [hres] at h; exact absurd h (by simp)
          | fuelOut => rw [hres] at h; exact absurd h (by simp)
          | ok ord2 =>
            rw [hres] at h
            dsimp only at h
            have horder : order = a :: ord2 := (TravOut.ok.inj h).symm
            subst horder
            have hq2 : ∀ n ∈ rest ++ pushed, lookup g n.name = some n := by
              intro n hn
              rcases List.mem_append.mp hn with h1 | h1
              · exact hq n (List.mem_cons_of_mem _ h1)
              · exact (pushNeighbors_mem hp n h1).2.1
            have hr2 : ∀ n ∈ rest ++ pushed, R n.name := by
              intro n hn
              rcases List.mem_append.mp hn with h1 | h1
              · exact hr n (List.mem_cons_of_mem _ h1)
              · obtain ⟨_, _, hin⟩ := pushNeighbors_mem hp n h1
                exact hstep a.name n.name a (hr a (List.mem_cons_self _ _))
                  (hq a (List.mem_cons_self _ _)) hin
            intro n hn
            rcases List.mem_cons.mp hn with rfl | hm
            · exact hr n (List.mem_cons_self _ _)
            · exact ih (rest ++ pushed) (v ++ [a.name]) ord2 hq2 hr2 hres n hm

theorem traverse_fuel_topo (g : List Node) :
    ∀ (fuel : Nat) (q : List Node) (v : List String) (order : List Node),
      (∀ n ∈ q, n.name ∈ v ∨ ∀ y ∈ n.out_edges, y ∈ v) →
      traverse_fuel g true fuel q v = .ok order →
      topoChain v order := by
  intro fuel
  induction fuel with
  | zero =>
    intro q v order hq h
    cases q with
    | nil =>
      simp only [traverse_fuel, TravOut.ok.injEq] at h
      subst h
      intro j n hj
      simp at hj
    | cons a rest => simp [traverse_fuel] at h
  | succ f ih =>
    intro q v order hq h
    cases q with
    | nil =>
      simp only [traverse_fuel, TravOut.ok.injEq] at h
      subst h
      intro j n hj
      simp at hj
    | cons a rest =>
      simp only [traverse_fuel] at h
      by_cases hv : a.name ∈ v
      · rw [if_pos hv] at h
        exact ih rest v order (fun n hn => hq n (List.mem_cons_of_mem _ hn)) h
      · rw [if_neg hv] at h
        cases hp : pushNeighbors g true a.in_edges (v ++ [a.name]) with
        | none => rw [hp] at h; exact absurd h (by simp)
        | some pushed =>
          rw [hp] at h
          dsimp only at h
          cases hres : traverse_fuel g true f (rest ++ pushed) (v ++ [a.name]) with
          | keyError => rw [hres] at h; exact absurd h (by simp)
          | fuelOut => rw [hres] at h; exact absurd h (by simp)
          | ok ord2 =>
            rw [hres] at h
            dsimp only at h
            have horder : order = a :: ord2 := (TravOut.ok.inj h).symm
            subst horder
            have hq2 : ∀ n ∈ rest ++ pushed, n.name ∈ v ++ [a.name] ∨
                ∀ y ∈ n.out_edges, y ∈ v ++ [a.name] := by
              intro n hn
              rcases List.mem_append.mp hn with h1 | h1
              · rcases hq n (List.mem_cons_of_mem _ h1) with h2 | h2
                · exact Or.inl (List.mem_append.mpr (Or.inl h2))
                · exact Or.inr fun y hy => List.mem_append.mpr (Or.inl (h2 y hy))
              · exact Or.inr (pushNeighbors_dep_visited hp n h1)
            have htail := ih (rest ++ pushed) (v ++ [a.name]) ord2 hq2 hres
            intro j n hj y hy
            cases j with
            | zero =>
              simp only [List.get?] at hj
              cases hj
              rcases hq a (List.mem_cons_self _ _) with h2 | h2
              · exact absurd h2 hv
              · simp only [List.take_zero]
                exact List.mem_append.mpr (Or.inl (h2 y hy))
            | succ j' =>
              have hj' : ord2.get? j' = some n := hj
              have := htail j' n hj' y hy
              rcases List.mem_append.mp this with h1 | h1
              · rcases List.mem_append.mp h1 with h2 | h2
                · exact List.mem_append.mpr (Or.inl h2)
                · rw [List.mem_singleton.mp h2]
                  refine List.mem_append.mpr (Or.inr ?_)
                  rw [List.take_succ_cons, namesOf_cons]
                  exact List.mem_cons_self _ _
              · refine List.mem_append.mpr (Or.inr ?_)
                rw [List.take_succ_cons, namesOf_cons]
                exact List.mem_cons_of_mem _ h1

theorem setUnionL_append (l : List String) :
    ∀ acc : List String, (∀ x ∈ l, x ∉ acc) → l.Nodup → setUnionL acc l = acc ++ l := by
  induction l with
  | nil => intro acc _ _; simp [setUnionL]
  | cons a t ih =>
    intro acc hdisj hl
    rw [List.nodup_cons] at hl
    have hadd : setAdd acc a = acc ++ [a] := if_neg (hdisj a (List.mem_cons_self _ _))
    have hstep : setUnionL acc (a :: t) = setUnionL (acc ++ [a]) t := by
      simp [setUnionL, List.foldl_cons, hadd]
    rw [hstep, ih (acc ++ [a]) ?_ hl.2]
    · simp
    · intro x hx
      rw [List.mem_append]
      push_neg
      refine ⟨hdisj x (List.mem_cons_of_mem _ hx), ?_⟩
      intro hxa
      rw [List.mem_singleton.mp hxa] at hx
      exact hl.1 hx

theorem get_dependencies_nodup (nm bd : String) (names : List String) (h : names.Nodup) :
    (get_dependencies nm bd names).Nodup :=
  List.Nodup.filter _ h

theorem get_dependencies_subset (nm bd : String) (names : List String) :
    ∀ x ∈ get_dependencies nm bd names, x ∈ names := fun _ hx =>
  List.mem_of_mem_filter hx

theorem get_dependencies_not_self (nm bd : String) (names : List String) :
    nm ∉ get_dependencies nm bd names := by
  intro h
  have := List.of_mem_filter h
  simp at this

theorem mem_get_dependencies (nm bd : String) (names : List String) (x : String) :
    x ∈ get_dependencies nm bd names ↔
      x ∈ names ∧ listContains x.data bd.data = true ∧ x ≠ nm := by
  unfold get_dependencies
  rw [List.mem_filter]
  constructor
  · rintro ⟨h1, h2⟩
    simp only [Bool.and_eq_true, bne_iff_ne, ne_eq] at h2
    exact ⟨h1, h2.1, h2.2⟩
  · rintro ⟨h1, h2, h3⟩
    refine ⟨h1, ?_⟩
    simp only [Bool.and_eq_true, bne_iff_ne, ne_eq]
    exact ⟨h2, h3⟩

theorem foldl_addIn (x : String) (D : List String) (hD : D.Nodup) (g : List Node) :
    D.foldl (fun acc dep => acc.map (fun n =>
      if n.name == dep then { n with in_edges := setAdd n.in_edges x } else n)) g
    = g.map (fun n => if n.name ∈ D then { n with in_edges := setAdd n.in_edges x } else n) := by
  induction D generalizing g with
  | nil =>
    rw [List.foldl_nil]
    have : (fun n : Node => if n.name ∈ ([] : List String)
        then { n with in_edges := setAdd n.in_edges x } else n) = fun n => n := by
      funext n
      simp
    rw [this, List.map_id']
  | cons d D' ih =>
    rw [List.nodup_cons] at hD
    rw [List.foldl_cons, ih hD.2, List.map_map]
    apply List.map_congr_left
    intro n _
    by_cases h1 : n.name = d
    · simp [Function.comp, h1, hD.1]
    · simp [Function.comp, List.mem_cons, h1]

theorem namesOf_filter_subset (P : List Node) (pred : Node → Bool) :
    ∀ x ∈ namesOf (P.filter pred), x ∈ namesOf P := by
  intro x hx
  rcases mem_namesOf.mp hx with ⟨n, hn, rfl⟩
  exact mem_namesOf.mpr ⟨n, List.mem_of_mem_filter hn, rfl⟩

theorem name_inj (nodes : List Node) (hnodup : (namesOf nodes).Nodup)
    {n m : Node} (hn : n ∈ nodes) (hm : m ∈ nodes) (h : n.name = m.name) : n = m :=
  List.inj_on_of_nodup_map hnodup hn hm h

theorem namesOf_singleton (a : Node) : namesOf [a] = [a.name] := rfl

theorem addEdgesForNode_state (nodes P R : List Node) (m : Node)
    (hsplit : nodes = P ++ m :: R) (hnodup : (namesOf nodes).Nodup) :
    addEdgesForNode (namesOf nodes) (nodes.map (stateNode (namesOf nodes) P)) m.name m.body
      = nodes.map (stateNode (namesOf nodes) (P ++ [m])) := by
  have hm_nodes : m ∈ nodes := by
    rw [hsplit]
    exact List.mem_append.mpr (Or.inr (List.mem_cons_self _ _))
  have hdistrib : namesOf nodes = namesOf P ++ m.name :: namesOf R := by
    rw [hsplit, namesOf_append, namesOf_cons]
  have hnodup' := hnodup
  rw [hdistrib, List.nodup_append] at hnodup'
  have hmP : m.name ∉ namesOf P := fun hmem => hnodup'.2.2 hmem (List.mem_cons_self _ _)
  have hDnodup : (get_dependencies m.name m.body (namesOf nodes)).Nodup :=
    get_dependencies_nodup _ _ _ hnodup
  have hDm : m.name ∉ get_dependencies m.name m.body (namesOf nodes) :=
    get_dependencies_not_self _ _ _
  have hsetu : setUnionL [] (get_dependencies m.name m.body (namesOf nodes)) =
      get_dependencies m.name m.body (namesOf nodes) := by
    simpa using setUnionL_append (get_dependencies m.name m.body (namesOf nodes)) []
      (fun x _ hx => absurd hx (List.not_mem_nil x)) hDnodup
  unfold addEdgesForNode
  dsimp only
  rw [List.map_map, foldl_addIn m.name _ hDnodup, List.map_map]
  apply List.map_congr_left
  intro n hn
  simp only [Function.comp]
  by_cases hnm : n.name = m.name
  · have hn_eq : n = m := name_inj nodes hnodup hn hm_nodes hnm
    subst hn_eq
    have hPm : n.name ∈ namesOf (P ++ [n]) := by
      rw [namesOf_append]
      exact List.mem_append.mpr (Or.inr (by simp [namesOf]))
    simp [stateNode, hmP, hDm, hsetu, List.filter_append, hPm]
  · have hfilterP : m.name ∉ namesOf (P.filter (fun mm =>
        decide (n.name ∈ get_dependencies mm.name mm.body (namesOf nodes)))) :=
      fun hmem => hmP (namesOf_filter_subset P _ m.name hmem)
    by_cases hD : n.name ∈ get_dependencies m.name m.body (namesOf nodes)
    · simp [stateNode, setAdd, List.filter_append, hnm, hD, hfilterP,
        namesOf_append, namesOf_singleton, List.mem_append, List.mem_singleton]
    · simp [stateNode, List.filter_append, hnm, hD,
        namesOf_append, namesOf_singleton, List.mem_append, List.mem_singleton]

theorem addDependencyEdges_char (nodes : List Node)
    (hnodup : (namesOf nodes).Nodup)
    (hEmpty : ∀ n ∈ nodes, n.in_edges = [] ∧ n.out_edges = []) :
    addDependencyEdges nodes = nodes.map (builtNode nodes) := by
  have main : ∀ (R P g : List Node), nodes = P ++ R →
      g = nodes.map (stateNode (namesOf nodes) P) →
      R.foldl (fun gr node => addEdgesForNode (namesOf nodes) gr node.name node.body) g
        = nodes.map (stateNode (namesOf nodes) nodes) := by
    intro R
    induction R with
    | nil =>
      intro P g hP hg
      rw [List.foldl_nil, hg]
      rw [List.append_nil] at hP
      rw [← hP]
    | cons m R' ih =>
      intro P g hP hg
      rw [List.foldl_cons, hg, addEdgesForNode_state nodes P R' m hP hnodup]
      exact ih (P ++ [m]) _ (by rw [hP, List.append_assoc]; rfl) rfl
  have h0 : nodes = nodes.map (stateNode (namesOf nodes) []) := by
    have hpt : ∀ n ∈ nodes, stateNode (namesOf nodes) [] n = n := by
      intro n hn
      obtain ⟨hin, hout⟩ := hEmpty n hn
      obtain ⟨nm, st, dc, bd, al, cm, ie, oe⟩ := n
      simp only at hin hout
      subst hin
      subst hout
      simp [stateNode, namesOf]
    have hmap : nodes.map (stateNode (namesOf nodes) []) = nodes := by
      rw [List.map_congr_left (fun n hn => hpt n hn), List.map_id']
    exact hmap.symm
  have hmain := main nodes [] nodes (by simp) h0
  unfold addDependencyEdges
  dsimp only
  rw [hmain]
  apply List.map_congr_left
  intro n hn
  have hmem : n.name ∈ namesOf nodes := mem_namesOf.mpr ⟨n, hn, rfl⟩
  simp [stateNode, builtNode, hmem]

theorem foldl_fresh {α : Type} (f : List Node → α → List Node)
    (hf : ∀ g a, FreshGraph g → FreshGraph (f g a)) :
    ∀ (l : List α) (g : List Node), FreshGraph g → FreshGraph (l.foldl f g) := by
  intro l
  induction l with
  | nil => intro g hg; exact hg
  | cons a t ih => intro g hg; exact ih (f g a) (hf g a hg)

theorem dictInsert_fresh (g : List Node) (node : Node) (hg : FreshGraph g)
    (hin : node.in_edges = []) (hout : node.out_edges = []) :
    FreshGraph (dictInsert g node) := by
  obtain ⟨hnodup, hempty⟩ := hg
  unfold dictInsert
  by_cases hany : (g.any (fun m => m.name == node.name)) = true
  · rw [if_pos hany]
    constructor
    · have : namesOf (g.map (fun m => if m.name == node.name then node else m)) = namesOf g := by
        unfold namesOf
        rw [List.map_map]
        apply List.map_congr_left
        intro m _
        simp only [Function.comp]
        by_cases he : (m.name == node.name) = true
        · rw [if_pos he, (beq_iff_eq.mp he).symm]
        · rw [if_neg he]
      rw [this]
      exact hnodup
    · intro n hn
      rcases List.mem_map.mp hn with ⟨m, hm, hEq⟩
      by_cases he : (m.name == node.name) = true
      · rw [if_pos he] at hEq
        rw [← hEq]
        exact ⟨hin, hout⟩
      · rw [if_neg he] at hEq
        rw [← hEq]
        exact hempty m hm
  · rw [if_neg hany]
    constructor
    · rw [namesOf_append, namesOf_singleton]
      rw [List.nodup_append]
      refine ⟨hnodup, List.nodup_singleton _, ?_⟩
      intro x hx hx2
      rw [List.mem_singleton.mp hx2] at hx
      exact hany (any_name_iff.mpr hx)
    · intro n hn
      rcases List.mem_append.mp hn with h | h
      · exact hempty n h
      · rw [List.mem_singleton.mp h]
        exact ⟨hin, hout⟩

theorem parse_file_into_fresh (g : List Node) (c : String) (hg : FreshGraph g) :
    FreshGraph (parse_file_into g c) := by
  unfold parse_file_into
  apply foldl_fresh _ ?_ _ _ hg
  intro g' chunk hg'
  dsimp only
  cases (parse_statement ⟨chunk⟩).parsed with
  | none => exact hg'
  | some p => exact dictInsert_fresh g' _ hg' rfl rfl

theorem parse_files_fresh (cl : List String) : FreshGraph (parse_files cl) := by
  unfold parse_files
  apply foldl_fresh _ ?_ _ _ ?_
  · intro g c hg
    exact parse_file_into_fresh g c hg
  · exact ⟨List.nodup_nil, fun n hn => absurd hn (List.not_mem_nil n)⟩

theorem parse_dependency_graph_char (cl : List String) :
    parse_dependency_graph cl = (parse_files cl).map (builtNode (parse_files cl)) :=
  addDependencyEdges_char _ (parse_files_fresh cl).1 (parse_files_fresh cl).2

theorem buildSubgraph_aux (g : List Node) (S : List String) :
    ∀ (T : List String) (sub : List Node),
      T.mapM (fun node_name => (lookup g node_name).map (fun original_node =>
        { original_node with
          in_edges := original_node.in_edges.filter (fun edge => edge ∈ S),
          out_edges := original_node.out_edges.filter (fun edge => edge ∈ S) })) = some sub →
      namesOf sub = T ∧
      ∀ p ∈ sub, ∃ orig ∈ g, lookup g p.name = some orig ∧
        p = { orig with in_edges := orig.in_edges.filter (fun edge => edge ∈ S),
                        out_edges := orig.out_edges.filter (fun edge => edge ∈ S) } := by
  intro T
  induction T with
  | nil =>
    intro sub h
    rw [List.mapM_nil] at h
    cases h
    exact ⟨rfl, fun p hp => absurd hp (List.not_mem_nil p)⟩
  | cons nm T' ih =>
    intro sub h
    rw [List.mapM_cons] at h
    cases hl : lookup g nm with
    | none => rw [hl] at h; simp at h
    | some orig =>
      rw [hl] at h
      cases hrest : T'.mapM (fun node_name => (lookup g node_name).map (fun original_node =>
          { original_node with
            in_edges := original_node.in_edges.filter (fun edge => edge ∈ S),
            out_edges := original_node.out_edges.filter (fun edge => edge ∈ S) })) with
      | none => rw [hrest] at h; simp at h
      | some subT =>
        rw [hrest] at h
        simp only [Option.map_some', Option.some_bind, Option.pure_def, bind,
          Option.bind, Option.some.injEq] at h
        obtain ⟨hnames, hmem⟩ := ih subT hrest
        have hon : orig.name = nm := (lookup_spec hl).2
        subst h
        constructor
        · rw [namesOf_cons, hnames]
          congr 1
        · intro p hp
          rcases List.mem_cons.mp hp with rfl | hmemT
          · refine ⟨orig, (lookup_spec hl).1, ?_, rfl⟩
            show lookup g orig.name = some orig
            rw [hon]
            exact hl
          · exact hmem p hmemT

theorem traverse_fuel_no_keyError (g : List Node) (d : Bool) (hg : EdgeClosed g) :
    ∀ (fuel : Nat) (q : List Node) (v : List String),
      (∀ n ∈ q, n ∈ g) → traverse_fuel g d fuel q v ≠ .keyError := by
  intro fuel
  induction fuel with
  | zero =>
    intro q v hq
    cases q with
    | nil => simp [traverse_fuel]
    | cons a rest => simp [traverse_fuel]
  | succ f ih =>
    intro q v hq
    cases q with
    | nil => simp [traverse_fuel]
    | cons a rest =>
      simp only [traverse_fuel]
      by_cases hv : a.name ∈ v
      · rw [if_pos hv]
        exact ih rest v (fun n hn => hq n (List.mem_cons_of_mem _ hn))
      · rw [if_neg hv]
        obtain ⟨pushed, hp⟩ := pushNeighbors_isSome
          (fun x hx => (hg a (hq a (List.mem_cons_self _ _))).1 x hx)
        rw [hp]
        dsimp only
        have hq2 : ∀ n ∈ rest ++ pushed, n ∈ g := by
          intro n hn
          rcases List.mem_append.mp hn with h1 | h1
          · exact hq n (List.mem_cons_of_mem _ h1)
          · exact (pushNeighbors_mem hp n h1).1
        have hrec := ih (rest ++ pushed) (v ++ [a.name]) hq2
        cases hres : traverse_fuel g d f (rest ++ pushed) (v ++ [a.name]) with
        | ok order => simp [hres]
        | keyError => exact absurd hres hrec
        | fuelOut => simp [hres]

theorem traverse_graph_ok (g seeds : List Node) (d : Bool) (hg : EdgeClosed g)
    (hseeds : ∀ s ∈ seeds, s ∈ g) :
    ∃ order, traverse_graph g seeds d = .ok order := by
  cases hres : traverse_graph g seeds d with
  | ok order => exact ⟨order, rfl⟩
  | keyError =>
    exact absurd hres (traverse_fuel_no_keyError g d hg _ seeds [] hseeds)
  | fuelOut => exact absurd hres (traverse_graph_not_fuelOut g seeds d)

/-- C7: the subgraph sync(selected) materializes over the reachable name
set has exactly the reachable names as its keys, and every name occurring
in a subgraph node's in-edges or out-edges belongs to the reachable set. -/
theorem C7_subgraph_consistency (g seeds reached sub : List Node)
    (h1 : traverse_graph g seeds false = .ok reached)
    (h2 : buildSubgraph g (namesOf reached) = some sub) :
    namesOf sub = namesOf reached ∧
    ∀ n ∈ sub, (∀ x ∈ n.in_edges, x ∈ namesOf reached) ∧
      (∀ x ∈ n.out_edges, x ∈ namesOf reached) := by
  obtain ⟨hnames, hmem⟩ := buildSubgraph_aux g (namesOf reached) (namesOf reached) sub h2
  refine ⟨hnames, ?_⟩
  intro n hn
  obtain ⟨orig, _, _, hEq⟩ := hmem n hn
  constructor
  · intro x hx
    rw [hEq] at hx
    have := (List.mem_filter.mp hx).2
    exact of_decide_eq_true this
  · intro x hx
    rw [hEq] at hx
    have := (List.mem_filter.mp hx).2
    exact of_decide_eq_true this

theorem C7_subgraph_consistency_witness :
    namesOf ((buildSubgraph gABC (namesOf (okOrder
        (traverse_graph gABC (lookup gABC "B").toList false)))).getD []) =
      namesOf (okOrder (traverse_graph gABC (lookup gABC "B").toList false)) ∧
    ∀ n ∈ (buildSubgraph gABC (namesOf (okOrder
        (traverse_graph gABC (lookup gABC "B").toList false)))).getD [],
      (∀ x ∈ n.in_edges, x ∈ namesOf (okOrder
        (traverse_graph gABC (lookup gABC "B").toList false))) ∧
      (∀ x ∈ n.out_edges, x ∈ namesOf (okOrder
        (traverse_graph gABC (lookup gABC "B").toList false))) :=
  C7_subgraph_consistency gABC (lookup gABC "B").toList
    (okOrder (traverse_graph gABC (lookup gABC "B").toList false))
    ((buildSubgraph gABC (namesOf (okOrder
        (traverse_graph gABC (lookup gABC "B").toList false)))).getD [])
    (by decide) (by decide)

theorem subgraph_symm (g : List Node) (S : List String) (sub : List Node)
    (hsym : EdgeSymm g) (h : buildSubgraph g S = some sub) : EdgeSymm sub := by
  obtain ⟨hnames, hmem⟩ := buildSubgraph_aux g S S sub h
  intro a ha b hb
  obtain ⟨a0, ha0g, hla, hEqa⟩ := hmem a ha
  obtain ⟨b0, hb0g, hlb, hEqb⟩ := hmem b hb
  have haS : a.name ∈ S := by
    rw [← hnames]
    exact mem_namesOf.mpr ⟨a, ha, rfl⟩
  have hbS : b.name ∈ S := by
    rw [← hnames]
    exact mem_namesOf.mpr ⟨b, hb, rfl⟩
  have hanm : a.name = a0.name := by rw [hEqa]
  have hbnm : b.name = b0.name := by rw [hEqb]
  constructor
  · intro hedge
    rw [hEqa] at hedge
    have h1 := List.mem_filter.mp hedge
    have h2 : b0.name ∈ a0.out_edges := hbnm ▸ h1.1
    have h3 := (hsym a0 ha0g b0 hb0g).mp h2
    rw [hEqb]
    apply List.mem_filter.mpr
    refine ⟨hanm ▸ h3, decide_eq_true (hanm ▸ haS)⟩
  · intro hedge
    rw [hEqb] at hedge
    have h1 := List.mem_filter.mp hedge
    have h2 : a0.name ∈ b0.in_edges := hanm ▸ h1.1
    have h3 := (hsym a0 ha0g b0 hb0g).mpr h2
    rw [hEqa]
    apply List.mem_filter.mpr
    refine ⟨hbnm ▸ h3, decide_eq_true (hbnm ▸ hbS)⟩

/-- C4: in every graph the construction produces, an out-edge from A to B
is recorded exactly when the matching in-edge from B to A is, and the
property carries over to every subgraph sync(selected) derives. -/
theorem C4_edge_symmetry (cl : List String) :
    EdgeSymm (parse_dependency_graph cl) ∧
    ∀ (seeds reached sub : List Node),
      traverse_graph (parse_dependency_graph cl) seeds false = .ok reached →
      buildSubgraph (parse_dependency_graph cl) (namesOf reached) = some sub →
      EdgeSymm sub := by
  have hnodup := (parse_files_fresh cl).1
  have hsym : EdgeSymm (parse_dependency_graph cl) := by
    rw [parse_dependency_graph_char]
    intro a' ha' b' hb'
    obtain ⟨a, ha, rfl⟩ := List.mem_map.mp ha'
    obtain ⟨b, hb, rfl⟩ := List.mem_map.mp hb'
    show b.name ∈ get_dependencies a.name a.body (namesOf (parse_files cl)) ↔
      a.name ∈ namesOf ((parse_files cl).filter (fun m =>
        decide (b.name ∈ get_dependencies m.name m.body (namesOf (parse_files cl)))))
    constructor
    · intro h
      exact mem_namesOf.mpr ⟨a, List.mem_filter.mpr ⟨ha, decide_eq_true h⟩, rfl⟩
    · intro h
      obtain ⟨mm, hmmF, hname⟩ := mem_namesOf.mp h
      obtain ⟨hmmN, hpred⟩ := List.mem_filter.mp hmmF
      have heq : mm = a := name_inj (parse_files cl) hnodup hmmN ha hname
      rw [← heq]
      exact of_decide_eq_true hpred
  exact ⟨hsym, fun seeds reached sub _ h2 => subgraph_symm _ _ _ hsym h2⟩

theorem C4_edge_symmetry_witness :
    EdgeSymm ((buildSubgraph gABC (namesOf (okOrder
        (traverse_graph gABC (lookup gABC "B").toList false)))).getD []) :=
  (C4_edge_symmetry [contentsABC]).2 (lookup gABC "B").toList
    (okOrder (traverse_graph gABC (lookup gABC "B").toList false))
    ((buildSubgraph gABC (namesOf (okOrder
        (traverse_graph gABC (lookup gABC "B").toList false)))).getD [])
    (by decide) (by decide)

theorem namesOf_pdg (cl : List String) :
    namesOf (parse_dependency_graph cl) = namesOf (parse_files cl) := by
  rw [parse_dependency_graph_char]
  unfold namesOf
  rw [List.map_map]
  apply List.map_congr_left
  intro n _
  rfl

/-- C5: in the built graph, for recognized names M distinct from a node's
own name, the edge to M exists exactly when M occurs verbatim inside the
node's body, and no node ever lists itself among its out-edges. -/
theorem C5_out_edges_lexical (cl : List String) :
    ∀ a ∈ parse_dependency_graph cl,
      (∀ m, m ∈ namesOf (parse_dependency_graph cl) → m ≠ a.name →
        (m ∈ a.out_edges ↔ listContains m.data a.body.data = true)) ∧
      a.name ∉ a.out_edges := by
  intro a ha
  rw [parse_dependency_graph_char] at ha
  obtain ⟨n, hn, rfl⟩ := List.mem_map.mp ha
  have hout : (builtNode (parse_files cl) n).out_edges =
      get_dependencies n.name n.body (namesOf (parse_files cl)) := rfl
  have hbody : (builtNode (parse_files cl) n).body = n.body := rfl
  have hname : (builtNode (parse_files cl) n).name = n.name := rfl
  constructor
  · intro m hm hne
    rw [hout, hbody, mem_get_dependencies]
    rw [namesOf_pdg] at hm
    constructor
    · rintro ⟨_, h2, _⟩
      exact h2
    · intro h
      exact ⟨hm, h, hname ▸ hne⟩
  · rw [hout, hname]
    exact get_dependencies_not_self _ _ _

theorem C5_out_edges_lexical_witness :
    ((∀ m, m ∈ namesOf (parse_dependency_graph [contentsABC]) →
        m ≠ ((lookup gABC "B").getD default).name →
        (m ∈ ((lookup gABC "B").getD default).out_edges ↔
          listContains m.data ((lookup gABC "B").getD default).body.data = true)) ∧
      ((lookup gABC "B").getD default).name ∉ ((lookup gABC "B").getD default).out_edges) :=
  C5_out_edges_lexical [contentsABC] ((lookup gABC "B").getD default) (by decide)

/-- C10: every name occurring in any edge of the built graph is a key of
the graph; the same holds for every subgraph buildSubgraph materializes;
and on any edge-closed graph the traversal's per-neighbor lookups always
succeed, so the traversal returns a visit order and never a key error. -/
theorem C10_lookups_safe :
    (∀ cl : List String, EdgeClosed (parse_dependency_graph cl)) ∧
    (∀ (g : List Node) (S : List String) (sub : List Node),
      buildSubgraph g S = some sub → EdgeClosed sub) ∧
    (∀ (g seeds : List Node) (d : Bool), EdgeClosed g → (∀ s ∈ seeds, s ∈ g) →
      ∃ order, traverse_graph g seeds d = .ok order) := by
  refine ⟨?_, ?_, ?_⟩
  · intro cl
    rw [parse_dependency_graph_char]
    intro n' hn'
    obtain ⟨n, hn, rfl⟩ := List.mem_map.mp hn'
    have hnames : namesOf ((parse_files cl).map (builtNode (parse_files cl))) =
        namesOf (parse_files cl) := by
      rw [← parse_dependency_graph_char, namesOf_pdg]
    rw [hnames]
    constructor
    · intro x hx
      have : x ∈ namesOf ((parse_files cl).filter (fun m =>
          decide (n.name ∈ get_dependencies m.name m.body (namesOf (parse_files cl))))) := hx
      exact namesOf_filter_subset _ _ x this
    · intro x hx
      exact get_dependencies_subset _ _ _ x hx
  · intro g S sub h
    obtain ⟨hnames, hmem⟩ := buildSubgraph_aux g S S sub h
    intro n hn
    obtain ⟨orig, _, _, hEq⟩ := hmem n hn
    rw [hnames]
    constructor
    · intro x hx
      rw [hEq] at hx
      exact of_decide_eq_true (List.mem_filter.mp hx).2
    · intro x hx
      rw [hEq] at hx
      exact of_decide_eq_true (List.mem_filter.mp hx).2
  · intro g seeds d hg hseeds
    exact traverse_graph_ok g seeds d hg hseeds

theorem C10_lookups_safe_witness :
    ∃ order, traverse_graph gABC (lookup gABC "B").toList false = .ok order :=
  C10_lookups_safe.2.2 gABC (lookup gABC "B").toList false
    (by unfold EdgeClosed; decide) (by decide)

/-- C9: the traversal always terminates (the fuel bound is never exhausted,
whatever the graph, seeds or mode, cyclic input included), each visited
node is visited and handed to the visit action exactly once (the visit
order carries no duplicate name), and on the cyclic graph L, X, Y with X
and Y in a dependency cycle, the dependency-ordered run from the leaf L
returns with X and Y silently unvisited and no error. -/
theorem C9_traversal_termination :
    (∀ (g seeds : List Node) (d : Bool), traverse_graph g seeds d ≠ .fuelOut) ∧
    (∀ (g seeds : List Node) (d : Bool) (order : List Node),
      traverse_graph g seeds d = .ok order → (namesOf order).Nodup) ∧
    (traverse_graph gCyc [nodeL] true = .ok [nodeL] ∧
      "X" ∈ namesOf gCyc ∧ "X" ∉ namesOf [nodeL]) := by
  refine ⟨traverse_graph_not_fuelOut, ?_, by decide, by decide, by decide⟩
  intro g seeds d order h
  exact (traverse_fuel_main g d _ seeds [] order h).2.1.1

theorem C9_traversal_termination_witness :
    (namesOf (okOrder (traverse_graph gCyc [nodeL] true))).Nodup :=
  C9_traversal_termination.2.1 gCyc [nodeL] true
    (okOrder (traverse_graph gCyc [nodeL] true)) (by decide)

/-- C2: the claim is false on the code as stated.  The two-node acyclic
graph where A depends on B is traversed with dependency_order true from
the starting node A; A is visited immediately even though its dependency B
is never visited, violating the visits-after-dependencies property. -/
theorem C2_counterexample :
    Acyclic gAB ∧ traverse_graph gAB [nodeA] true = .ok [nodeA] ∧
      ¬ topoChain [] [nodeA] := by
  refine ⟨?_, by decide, ?_⟩
  · have hedge : ∀ x y, hasEdge gAB x y → x = "A" ∧ y = "B" := by
      rintro x y ⟨n, hn, hna, hb⟩
      rcases List.mem_cons.mp hn with rfl | hn2
      · simp only [nodeA] at hna hb
        rw [List.mem_singleton] at hb
        exact ⟨hna.symm, hb⟩
      · rcases List.mem_cons.mp hn2 with rfl | hn3
        · simp only [nodeB] at hb
          exact absurd hb (List.not_mem_nil y)
        · exact absurd hn3 (List.not_mem_nil n)
    have key : ∀ x y, Relation.TransGen (hasEdge gAB) x y → y = "B" := by
      intro x y h
      induction h with
      | single he => exact (hedge _ _ he).2
      | tail h1 he ih => exact (hedge _ _ he).2
    intro a h
    have ha := key a a h
    subst ha
    cases h with
    | single he => exact absurd (hedge _ _ he).1 (by decide)
    | tail h1 he =>
      have hb := key _ _ h1
      exact absurd (hb ▸ (hedge _ _ he).1) (by decide)
  · intro h
    have := h 0 nodeA rfl "B" (by decide)
    simp [namesOf] at this

/-- C2 (amended): for every graph and every run of traverse_graph with
dependency_order true whose starting nodes all have empty out-edge sets (as
in every call the orchestrator makes), every visited node is visited
strictly after all nodes named in its out-edges; and on the three views
A, B referencing A, C referencing B, syncAll visits in the order A, B, C. -/
theorem C2_dependency_order :
    (∀ (g seeds order : List Node),
      (∀ s ∈ seeds, s.out_edges = []) →
      traverse_graph g seeds true = .ok order →
      topoChain [] order) ∧
    visitNames (sync_all gABC) = some ["A", "B", "C"] := by
  constructor
  · intro g seeds order hs h
    exact traverse_fuel_topo g _ seeds [] order
      (fun n hn => Or.inr (fun y hy => (hs n hn) ▸ hy)) h
  · decide

theorem C2_dependency_order_witness :
    topoChain [] (okOrder (sync_all gABC)) :=
  C2_dependency_order.1 gABC (gABC.filter (fun node => node.out_edges.isEmpty))
    (okOrder (sync_all gABC)) (by decide) (by decide)

/-- C6: an unordered traversal (dependency_order false) returns exactly the
seed names plus every name transitively reachable from a seed along
in-edges, i.e. everything that directly or transitively depends on a
seed. -/
theorem C6_reachability (g seeds reached : List Node)
    (hnodup : (namesOf g).Nodup) (hseeds : ∀ s ∈ seeds, s ∈ g) (hne : seeds ≠ [])
    (h : traverse_graph g seeds false = .ok reached) :
    ∀ x, x ∈ namesOf reached ↔ ReachableIn g seeds x := by
  intro x
  constructor
  · intro hx
    obtain ⟨n, hn, rfl⟩ := mem_namesOf.mp hx
    exact traverse_fuel_sound g false (ReachableIn g seeds)
      (fun m y node hm hl hin => ReachableIn.step hm hl hin)
      _ seeds [] reached
      (fun s hs => lookup_self hnodup (hseeds s hs))
      (fun s hs => ReachableIn.seed hs) h n hn
  · intro hr
    induction hr with
    | seed hs =>
      rcases (traverse_fuel_main g false _ seeds [] reached h).1 _ hs with h1 | h1
      · exact absurd h1 (List.not_mem_nil _)
      · exact h1
    | @step m y node hm hl hin ih =>
      obtain ⟨nd, hnd, hndname⟩ := mem_namesOf.mp ih
      have hlook : lookup g nd.name = some nd :=
        traverse_fuel_lookup_inv g false _ seeds [] reached
          (fun s hs => lookup_self hnodup (hseeds s hs)) h nd hnd
      rw [hndname] at hlook
      have hnode : node = nd := Option.some.inj (hl.symm.trans hlook)
      have h6 := (traverse_fuel_main g false _ seeds [] reached h).2.2 rfl nd hnd y
        (hnode ▸ hin)
      simpa using h6

theorem C6_reachability_witness :
    "C" ∈ namesOf (okOrder (traverse_graph gABC (lookup gABC "B").toList false)) ↔
      ReachableIn gABC (lookup gABC "B").toList "C" :=
  C6_reachability gABC (lookup gABC "B").toList
    (okOrder (traverse_graph gABC (lookup gABC "B").toList false))
    (by decide) (by decide) (by decide) (by decide) "C"
